import Mathlib

/-!
A shallow embedding of the benchmark engine of kioperf and ioperf.

The Go packages `pkg/kioperf` and `pkg/ioperf` drive a pool of workers through
`Iterations` read or write operations over `Files` target files and report
aggregate statistics.  This file embeds the task generator, the worker pool,
the local-file backend (`diskWrite`, `diskRead`) and the statistics scan of
`DoTest`, and proves properties of them.

Conventions of the embedding:

* Go `int` / `int64` values are `Int`; arithmetic that can leave the 64-bit
  range goes through `wrapInt64` (two's complement wrap-around).
* A buffered channel is the list of the values it holds, oldest first.
* `float64` durations are exact rationals; the code only compares and copies
  them.
* A Go panic or a send that can never complete is `none`.
-/

namespace Go

/-- Two's complement wrap-around of a 64-bit signed integer. -/
def wrapInt64 (x : Int) : Int := Int.bmod x (2 ^ 64)

/-- The verb `%d` of `fmt.Sprintf` on an integer: decimal digits, with a
leading minus sign for a negative number. -/
def fmtD : Int → String
  | Int.ofNat m => Nat.repr m
  | Int.negSucc m => "-" ++ Nat.repr (m + 1)

/-- A send on a buffered channel of capacity `cap` holding `buf`, with no
receiver running: it completes when there is room and blocks forever
otherwise (`none`). -/
def chanSend {α : Type} (cap : Int) (buf : List α) (x : α) : Option (List α) :=
  if (buf.length : Int) < cap then some (buf ++ [x]) else none

end Go

namespace kioperf

/-- The struct `CommonConfig` of `pkg/kioperf`. -/
structure CommonConfig where
  FileType : String
  Operation : String
  Iterations : Int
  Threads : Int
  FileSizeMiB : Int
  Path : String
  Files : Int
  Debug : Bool
  CsvData : Bool
  DryRun : Bool
  deriving DecidableEq, Repr

/-- The task string built in `DoTest`:
`fmt.Sprintf("%s/kioperf-file-%d.dat", common.Path, index)`. -/
def taskName (path : String) (index : Int) : String :=
  path ++ "/kioperf-file-" ++ Go.fmtD index ++ ".dat"

/-- The task loop of `DoTest`,
`for i := 0; i < common.Iterations; i++ { index := i % common.Files; tasks <- ... }`,
with `n` the number of iterations still to run, `i` the loop variable and
`tasks` the content of the channel.  `i % common.Files` panics when
`common.Files` is zero; the channel has capacity `common.Iterations`. -/
def fillTasks (common : CommonConfig) : Nat → Int → List String → Option (List String)
  | 0, _, tasks => some tasks
  | n + 1, i, tasks =>
    if common.Files = 0 then none
    else
      match Go.chanSend common.Iterations tasks
          (taskName common.Path (Int.tmod i common.Files)) with
      | none => none
      | some tasks1 => fillTasks common n (i + 1) tasks1

/-- The content of the task channel when the task loop of `DoTest` is over:
the loop runs from `i = 0` on the empty channel, once for every `i` below
`common.Iterations`. -/
def taskLoop (common : CommonConfig) : Option (List String) :=
  fillTasks common common.Iterations.toNat 0 []

/-- The content of the task channel when `DoTest` starts the workers, for the
configuration `common` that `test.Init()` has left.
`make(chan string, common.Iterations)` panics on a negative size, and a dry
run returns before the task loop, with nothing on the channel. -/
def generateTasks (common : CommonConfig) : Option (List String) :=
  if common.Iterations < 0 then none
  else if common.DryRun then some []
  else taskLoop common

end kioperf

namespace ioperf

/-- The struct `Config` of `pkg/ioperf`. -/
structure Config where
  FileType : String
  Operation : String
  Iterations : Int
  Threads : Int
  DirPath : String
  Bucket : String
  Files : Int
  FileSizeMiB : Int
  Sync : Bool
  Debug : Bool
  CsvData : Bool
  deriving DecidableEq, Repr

/-- The task string built in `DoTest`:
`fmt.Sprintf("%s/ioperf-file-%d.dat", config.DirPath, index)`. -/
def taskName (dirPath : String) (index : Int) : String :=
  dirPath ++ "/ioperf-file-" ++ Go.fmtD index ++ ".dat"

/-- The task loop of `DoTest` in `pkg/ioperf`, as `kioperf.fillTasks`. -/
def fillTasks (config : Config) : Nat → Int → List String → Option (List String)
  | 0, _, tasks => some tasks
  | n + 1, i, tasks =>
    if config.Files = 0 then none
    else
      match Go.chanSend config.Iterations tasks
          (taskName config.DirPath (Int.tmod i config.Files)) with
      | none => none
      | some tasks1 => fillTasks config n (i + 1) tasks1

/-- The content of the task channel when the task loop of `DoTest` is over:
the loop runs from `i = 0` on the empty channel, once for every `i` below
`config.Iterations`. -/
def taskLoop (config : Config) : Option (List String) :=
  fillTasks config config.Iterations.toNat 0 []

end ioperf

/-! ## The operating system seen by the local-file backend -/

namespace Sys

/-- The files of the file system: the bytes stored under each path, `none`
when no file exists there. -/
structure FileSys where
  file : String → Option (List Nat)

/-- The file system that holds no file. -/
def FileSys.empty : FileSys := ⟨fun _ => none⟩

/-- The file system with the content of one path replaced. -/
def FileSys.store (fs : FileSys) (path : String) (content : List Nat) : FileSys :=
  ⟨fun p => if p = path then some content else fs.file p⟩

/-- The call `f.Sync()`: the data goes to stable storage, the bytes of the
files stay as they are. -/
def FileSys.sync (fs : FileSys) : FileSys := fs

/-- The answers of the operating system during one backend operation.
`openErr path`: opening `path` fails whatever the file system holds
(permissions, a missing directory).  `writeErr k`: the outcome of the
`k`-th `Write` call, `none` when it writes its whole buffer with a nil error,
`some n` when it fails after `n` bytes.  `readErr k`: the `k`-th `Read` call
fails with an error other than `io.EOF`. -/
structure OS where
  openErr : String → Bool
  writeErr : Nat → Option Nat
  readErr : Nat → Bool

/-- The clock readings of one backend operation, in nanoseconds:
`start.Sub(STARTTIME)`, `now.Sub(start)` after the `k`-th `Read` call, and
`end.Sub(start)`. -/
structure Timing where
  sinceStart : Int
  now : Nat → Int
  elapsed : Int

/-- The content of a file after `data` is written at offset `off`; a gap
between the end of the file and `off` reads as zeros. -/
def writeAt (content : List Nat) (off : Nat) (data : List Nat) : List Nat :=
  content.take off ++ List.replicate (off - content.length) 0 ++ data ++
    content.drop (off + data.length)

end Sys

namespace kioperf

/-- The struct `Result` of `pkg/kioperf`. -/
structure Result where
  Operation : String
  WorkerId : Int
  Path : String
  Succeeded : Bool
  Bytes : Int
  StartTimeMs : ℚ
  Duration : ℚ
  FirstBlockArrivalMs : ℚ
  deriving DecidableEq, Repr

/-- The zero value of `Result` (`var result Result`). -/
def Result.zero : Result := ⟨"", 0, "", false, 0, 0, 0, 0⟩

/-- The function `millis64`: nanoseconds to milliseconds. -/
def millis64 (d : Int) : ℚ := (d : ℚ) / 1000 / 1000

/-- The 1024-byte block that `diskWrite` fills with `data[i] = byte(i % 256)`. -/
def writeBlock : List Nat := (List.range 1024).map (fun i => i % 256)

/-- The write loop of `diskWrite`,
`for i := 0; i < int(blocksToWrite); i++ { written, err := f.Write(data); ... }`,
with `n` the number of iterations still to run, `k` the loop variable, `off`
the file offset, `content` the bytes of the file and `bytes` the field
`result.Bytes`.  The `Bool` is false when the loop was left by the early
return on a write error. -/
def writeLoop (env : Sys.OS) (data : List Nat) :
    Nat → Nat → Nat → List Nat → Int → Bool × Int × List Nat
  | 0, _, _, content, bytes => (true, bytes, content)
  | n + 1, k, off, content, bytes =>
    match env.writeErr k with
    | some w => (false, bytes, Sys.writeAt content off (data.take w))
    | none =>
      writeLoop env data n (k + 1) (off + data.length) (Sys.writeAt content off data)
        (Go.wrapInt64 (bytes + (data.length : Int)))

/-- The function `diskWrite`: the result it returns and the file system it
leaves.  The file is opened with `O_WRONLY|O_CREATE`: a file that exists keeps
its bytes, and writing starts at offset 0. -/
def diskWrite (env : Sys.OS) (fs : Sys.FileSys) (t : Sys.Timing)
    (path : String) (size : Int) (fsync : Bool) : Result × Sys.FileSys :=
  let result : Result :=
    { Result.zero with
      Operation := "disk-write", Path := path, StartTimeMs := millis64 t.sinceStart }
  if env.openErr path then (result, fs)
  else
    let blocksToWrite := Go.wrapInt64 (size * 1024)
    match writeLoop env writeBlock blocksToWrite.toNat 0 0 ((fs.file path).getD []) 0 with
    | (false, bytes, content) =>
      ({ result with Bytes := bytes, Duration := millis64 t.elapsed }, fs.store path content)
    | (true, bytes, content) =>
      ({ result with Bytes := bytes, Duration := millis64 t.elapsed, Succeeded := true },
        if fsync then (fs.store path content).sync else fs.store path content)

/-- The read loop of `diskRead`, `for { bytes, err := f.Read(data); ... }`, with
`k` the number of `Read` calls made, `off` the file offset and `result` the
result under construction.  A `Read` into the 1024-byte buffer returns the
bytes left in the file, at most 1024 of them, and `io.EOF` when none is left. -/
def readLoop (env : Sys.OS) (t : Sys.Timing) (content : List Nat)
    (k off : Nat) (result : Result) : Result :=
  if env.readErr k then result
  else if off < content.length then
    readLoop env t content (k + 1) (off + min 1024 (content.length - off))
      { result with
        Bytes := Go.wrapInt64 (result.Bytes + ((min 1024 (content.length - off) : Nat) : Int)),
        FirstBlockArrivalMs :=
          if result.FirstBlockArrivalMs ≤ 0 then millis64 (t.now k)
          else result.FirstBlockArrivalMs }
  else { result with Succeeded := true }
termination_by content.length - off
decreasing_by omega

/-- The function `diskRead`.  `os.Open` fails when no file exists at `path`. -/
def diskRead (env : Sys.OS) (fs : Sys.FileSys) (t : Sys.Timing) (path : String) : Result :=
  let result : Result :=
    { Result.zero with
      Operation := "disk-read", Path := path, StartTimeMs := millis64 t.sinceStart }
  match (if env.openErr path then none else fs.file path) with
  | none => result
  | some content =>
    { readLoop env t content 0 0 result with Duration := millis64 t.elapsed }

end kioperf

namespace ioperf

/-- The struct `Result` of `pkg/ioperf`. -/
structure Result where
  Operation : String
  WorkerId : Int
  Path : String
  Succeeded : Bool
  Bytes : Int
  SinceStart : ℚ
  Duration : ℚ
  deriving DecidableEq, Repr

/-- The zero value of `Result` (`var result Result`). -/
def Result.zero : Result := ⟨"", 0, "", false, 0, 0, 0⟩

/-- The function `millis64`: nanoseconds to milliseconds. -/
def millis64 (d : Int) : ℚ := (d : ℚ) / 1000 / 1000

/-- The 1024-byte block that `diskWrite` fills with `data[i] = byte(i % 256)`. -/
def writeBlock : List Nat := (List.range 1024).map (fun i => i % 256)

/-- The write loop of `diskWrite` in `pkg/ioperf`, as `kioperf.writeLoop`. -/
def writeLoop (env : Sys.OS) (data : List Nat) :
    Nat → Nat → Nat → List Nat → Int → Bool × Int × List Nat
  | 0, _, _, content, bytes => (true, bytes, content)
  | n + 1, k, off, content, bytes =>
    match env.writeErr k with
    | some w => (false, bytes, Sys.writeAt content off (data.take w))
    | none =>
      writeLoop env data n (k + 1) (off + data.length) (Sys.writeAt content off data)
        (Go.wrapInt64 (bytes + (data.length : Int)))

/-- The function `diskWrite` of `pkg/ioperf`: the result it returns and the
file system it leaves. -/
def diskWrite (env : Sys.OS) (fs : Sys.FileSys) (t : Sys.Timing)
    (path : String) (size : Int) : Result × Sys.FileSys :=
  let result : Result :=
    { Result.zero with
      Operation := "disk-write", Path := path, SinceStart := millis64 t.sinceStart }
  if env.openErr path then (result, fs)
  else
    let blocksToWrite := Go.wrapInt64 (size * 1024)
    match writeLoop env writeBlock blocksToWrite.toNat 0 0 ((fs.file path).getD []) 0 with
    | (false, bytes, content) =>
      ({ result with Bytes := bytes, Duration := millis64 t.elapsed }, fs.store path content)
    | (true, bytes, content) =>
      ({ result with Bytes := bytes, Duration := millis64 t.elapsed, Succeeded := true },
        fs.store path content)

/-- The index `p*config.Iterations/100` at which `DoTest` reads the sorted
result list; `/` truncates toward zero. -/
def percentileIndex (p iterations : Int) : Int :=
  Int.tdiv (Go.wrapInt64 (p * iterations)) 100

end ioperf

namespace Go

/-- The element `s[i]` of a slice; an index out of range panics. -/
def sliceIndex {α : Type} (s : List α) (i : Int) : Option α :=
  if 0 ≤ i ∧ i < (s.length : Int) then s[i.toNat]? else none

end Go

namespace kioperf

/-! ### The worker pool -/

/-- The workers, the two channels and the result list of `DoTest` while a run
is under way.  `tasks`: the task channel.  `busy`: the workers that received a
path and are inside the backend call, with that path.  `results`: the result
channel.  `resultList`: the results `DoTest` has received so far, in order of
arrival. -/
structure Pool where
  tasks : List String
  busy : List (Nat × String)
  results : List Result
  resultList : List Result
  deriving DecidableEq, Repr

/-- The moves of a run.  `dequeue w`: worker `w` receives a path from the task
channel (`for path := range tasks`).  `emit w r`: the backend call of worker `w`
returns `r`; the worker stamps its id and sends the result
(`result.WorkerId = id; results <- result`).  `collect`: `DoTest` receives a
result (`result := <-results; resultList[i] = result`). -/
inductive Action where
  | dequeue (w : Nat)
  | emit (w : Nat) (r : Result)
  | collect
  deriving DecidableEq, Repr

/-- One move of a run of `common.Threads` workers, `none` when the move is not
possible in this state.  A worker holds one path at a time.  Every backend
operation returns a result whose `Path` is the path it was given.  The result
channel has capacity `common.Iterations`. -/
def Pool.step (common : CommonConfig) (s : Pool) : Action → Option Pool
  | Action.dequeue w =>
    match s.tasks with
    | [] => none
    | path :: rest =>
      if (w : Int) < common.Threads ∧ s.busy.lookup w = none then
        some { s with tasks := rest, busy := (w, path) :: s.busy }
      else none
  | Action.emit w r =>
    match s.busy.lookup w with
    | none => none
    | some path =>
      if r.Path = path ∧ (s.results.length : Int) < common.Iterations then
        some { s with
          busy := s.busy.eraseP (fun e => e.1 == w),
          results := s.results ++ [{ r with WorkerId := (w : Int) }] }
      else none
  | Action.collect =>
    match s.results with
    | [] => none
    | r :: rest =>
      if (s.resultList.length : Int) < common.Iterations then
        some { s with results := rest, resultList := s.resultList ++ [r] }
      else none

/-- A run: the moves of a schedule, one after the other. -/
def Pool.run (common : CommonConfig) : Pool → List Action → Option Pool
  | s, [] => some s
  | s, a :: rest =>
    match s.step common a with
    | none => none
    | some s1 => Pool.run common s1 rest

/-- The pool when the workers are started: the task channel is full, nothing
else has happened. -/
def Pool.start (tasks : List String) : Pool := ⟨tasks, [], [], []⟩

/-- No worker holds a path and both channels are empty. -/
def Pool.quiet (s : Pool) : Bool :=
  s.tasks.isEmpty && s.busy.isEmpty && s.results.isEmpty

/-- The paths of the tasks of a run, wherever they are: waiting in the task
channel, held by a worker, or turned into a result. -/
def Pool.paths (s : Pool) : List String :=
  s.tasks ++ s.busy.map Prod.snd ++ (s.results ++ s.resultList).map (fun r => r.Path)

/-- The number of results that worker `w` has sent so far. -/
def Pool.emittedBy (s : Pool) (w : Nat) : Nat :=
  ((s.results ++ s.resultList).filter (fun r => r.WorkerId = (w : Int))).length

/-- The number of paths that worker `w` holds (inside a backend call). -/
def Pool.heldBy (s : Pool) (w : Nat) : Nat :=
  (s.busy.filter (fun e => e.1 = w)).length

/-- The number of moves left in a pool: a waiting task needs three (dequeue,
emit, collect), a held one two, a result in the channel one. -/
def Pool.movesLeft (s : Pool) : Nat :=
  3 * s.tasks.length + 2 * s.busy.length + s.results.length

/-! ### The statistics of `DoTest` -/

/-- The constant `math.MaxFloat64`. -/
def maxFloat64 : ℚ := (2 ^ 53 - 1) * 2 ^ 971

/-- The aggregates of `DoTest`: `files`, `bytes`, `succeeded`, `failed`, `min`,
`max`, `sum`. -/
structure Summary where
  files : Int
  bytes : Int
  succeeded : Int
  failed : Int
  min : ℚ
  max : ℚ
  sum : ℚ
  deriving DecidableEq, Repr

/-- The body of the loop `for _, res := range resultList` of `DoTest`. -/
def Summary.add (acc : Summary) (res : Result) : Summary :=
  { files := acc.files + 1
    bytes := Go.wrapInt64 (acc.bytes + res.Bytes)
    succeeded := if res.Succeeded then acc.succeeded + 1 else acc.succeeded
    failed := if res.Succeeded then acc.failed else acc.failed + 1
    min := if acc.min > res.Duration then res.Duration else acc.min
    max := if acc.max < res.Duration then res.Duration else acc.max
    sum := acc.sum + res.Duration }

/-- The aggregates of `DoTest` over the result list, from
`min, max, sum = math.MaxFloat64, 0.0, 0.0` and zero counters. -/
def summarize (resultList : List Result) : Summary :=
  resultList.foldl Summary.add ⟨0, 0, 0, 0, maxFloat64, 0, 0⟩

/-- The comparison given to `sort.Slice` in `DoTest`. -/
def lessDuration (a b : Result) : Bool := a.Duration < b.Duration

/-- What `sort.Slice` leaves behind: the same results, no result before one
that is less than it. -/
def SortedByDuration (resultList sorted : List Result) : Prop :=
  sorted.Perm resultList ∧ sorted.Pairwise (fun a b => lessDuration b a = false)

/-- The percentile ladder of `DoTest`. -/
def ladder : List Int := [0, 10, 20, 30, 40, 50, 60, 70, 80, 90, 95, 99]

/-- The index `p*common.Iterations/100` at which `DoTest` reads the sorted
result list; `/` truncates toward zero. -/
def percentileIndex (p iterations : Int) : Int :=
  Int.tdiv (Go.wrapInt64 (p * iterations)) 100

/-- The value `pDuration` for percentile `p`:
`resultList[p*common.Iterations/100].Duration`. -/
def pDuration (sorted : List Result) (iterations p : Int) : Option ℚ :=
  (Go.sliceIndex sorted (percentileIndex p iterations)).map (fun r => r.Duration)

/-- The values printed by the percentile loop of `DoTest`, `none` when a
lookup panics. -/
def percentiles (sorted : List Result) (iterations : Int) : Option (List ℚ) :=
  ladder.mapM (pDuration sorted iterations)

end kioperf

/-! ### Initialisation of the two test kinds -/

namespace Go

/-- The fields of the struct `url.URL` that `S3Config.Init` reads. -/
structure URL where
  Scheme : String
  Host : String
  Path : String
  deriving DecidableEq, Repr

end Go

namespace kioperf

/-- The struct `S3Config`. -/
structure S3Config where
  Common : CommonConfig
  S3Url : String
  S3Bucket : String
  deriving DecidableEq, Repr

/-- The struct `DiskConfig`. -/
structure DiskConfig where
  Common : CommonConfig
  Direct : Bool
  Fsync : Bool
  deriving DecidableEq, Repr

/-- The method `S3Config.Init`: the configuration it leaves, `none` when it
panics.  `parse` is the function `url.Parse` of the Go library, `none` when
it returns an error. -/
def S3Config.Init (parse : String → Option Go.URL) (config : S3Config) : Option S3Config :=
  match parse config.S3Url with
  | none => none
  | some parsedUrl =>
    if parsedUrl.Scheme ≠ "s3" ∨ parsedUrl.Host = "" ∨ parsedUrl.Path = "" then none
    else
      some { config with
        S3Bucket := parsedUrl.Host,
        Common := { config.Common with Path := parsedUrl.Path } }

/-- The pool with which `DoTest` starts the workers of an S3 test: `test.Init()`
runs first, and the task loop reads `common.Path` through the pointer that
`GetCommonConfig` returned, so it sees the path that `Init` stored. -/
def S3Config.start (parse : String → Option Go.URL) (config : S3Config) : Option Pool :=
  match config.Init parse with
  | none => none
  | some config1 => (generateTasks config1.Common).map Pool.start

/-- The method `DiskConfig.Init`: it prints `Direct` and `Fsync` and changes
nothing. -/
def DiskConfig.Init (config : DiskConfig) : DiskConfig := config

/-- One turn of the loop of `DiskConfig.Worker` for worker `id`, on the path it
received: the result it sends and the file system it leaves. -/
def DiskConfig.Worker (config : DiskConfig) (id : Int) (env : Sys.OS) (fs : Sys.FileSys)
    (t : Sys.Timing) (path : String) : Result × Sys.FileSys :=
  if config.Common.Operation = "write" then
    match diskWrite env fs t path config.Common.FileSizeMiB config.Fsync with
    | (result, fs1) => ({ result with WorkerId := id }, fs1)
  else
    ({ diskRead env fs t path with WorkerId := id }, fs)

end kioperf

/-! ### The calls that the local-file backend issues -/

namespace Sys

/-- The flags of an open call; `O_DIRECT` asks for direct I/O. -/
inductive OpenFlag where
  | O_RDONLY
  | O_WRONLY
  | O_CREATE
  | O_DIRECT
  deriving DecidableEq, Repr

/-- A call on a file: `os.OpenFile(name, flag, perm)` (`os.Open(name)` is
`os.OpenFile(name, O_RDONLY, 0)`), `f.Write(b)`, `f.Read(b)` into a buffer of
`size` bytes, `f.Sync()` and `f.Close()`. -/
inductive FileCall where
  | openFile (name : String) (flag : List OpenFlag) (perm : Nat)
  | write (b : List Nat)
  | read (size : Nat)
  | sync
  | close
  deriving DecidableEq, Repr

/-- The bytes that a call hands to the file. -/
def FileCall.written : FileCall → List Nat
  | FileCall.write b => b
  | _ => []

/-- The byte stream that a sequence of calls hands to the file. -/
def writtenStream (calls : List FileCall) : List Nat :=
  (calls.map FileCall.written).flatten

end Sys

namespace kioperf

/-- The `Write` calls of the loop of `diskWrite`, with `n` the number of
iterations still to run and `k` the loop variable; the `Bool` is false when
the loop was left on a write error. -/
def writeCalls (env : Sys.OS) (data : List Nat) : Nat → Nat → Bool × List Sys.FileCall
  | 0, _ => (true, [])
  | n + 1, k =>
    match env.writeErr k with
    | some _ => (false, [Sys.FileCall.write data])
    | none =>
      match writeCalls env data n (k + 1) with
      | (completed, calls) => (completed, Sys.FileCall.write data :: calls)

/-- The calls that `diskWrite` issues, in order; `defer f.Close()` runs when
the function returns after a successful open. -/
def diskWriteCalls (env : Sys.OS) (path : String) (size : Int) (fsync : Bool) :
    List Sys.FileCall :=
  Sys.FileCall.openFile path [Sys.OpenFlag.O_WRONLY, Sys.OpenFlag.O_CREATE] 0o755 ::
    (if env.openErr path then []
    else
      match writeCalls env writeBlock (Go.wrapInt64 (size * 1024)).toNat 0 with
      | (false, calls) => calls ++ [Sys.FileCall.close]
      | (true, calls) =>
        calls ++ (if fsync then [Sys.FileCall.sync] else []) ++ [Sys.FileCall.close])

/-- The `Read` calls of the loop of `diskRead`, as in `readLoop`. -/
def readCalls (env : Sys.OS) (content : List Nat) (k off : Nat) : List Sys.FileCall :=
  Sys.FileCall.read 1024 ::
    (if env.readErr k then []
    else if off < content.length then
      readCalls env content (k + 1) (off + min 1024 (content.length - off))
    else [])
termination_by content.length - off
decreasing_by omega

/-- The calls that `diskRead` issues, in order. -/
def diskReadCalls (env : Sys.OS) (fs : Sys.FileSys) (path : String) : List Sys.FileCall :=
  Sys.FileCall.openFile path [Sys.OpenFlag.O_RDONLY] 0 ::
    (match (if env.openErr path then none else fs.file path) with
    | none => []
    | some content => readCalls env content 0 0 ++ [Sys.FileCall.close])

/-- The calls that one turn of the loop of `DiskConfig.Worker` issues. -/
def DiskConfig.WorkerCalls (config : DiskConfig) (env : Sys.OS) (fs : Sys.FileSys)
    (path : String) : List Sys.FileCall :=
  if config.Common.Operation = "write" then
    diskWriteCalls env path config.Common.FileSizeMiB config.Fsync
  else
    diskReadCalls env fs path

/-! ### The shared write payload -/

/-- The buffer `DATA` when `DoTest` has run its first block: for a write run
`make([]byte, byteCount)` with `byteCount := common.FileSizeMiB * 1024 * 1024`,
filled with `DATA[i] = byte(i % 256)`; `make` panics on a negative length.
For a read run `DATA` stays nil. -/
def DATA (common : CommonConfig) : Option (List Nat) :=
  if common.Operation = "write" then
    let byteCount := Go.wrapInt64 (Go.wrapInt64 (common.FileSizeMiB * 1024) * 1024)
    if byteCount < 0 then none
    else some ((List.range byteCount.toNat).map (fun i => i % 256))
  else some []

/-- The shared write payload in the words of the specification: a buffer of
`fileSizeMiB * 2^20` bytes with `byte[i] = i mod 256`. -/
def specPayload (fileSizeMiB : Int) : List Nat :=
  (List.range (fileSizeMiB * 2 ^ 20).toNat).map (fun i => i % 256)

end kioperf

/-! ## Decimal formatting is injective -/

namespace Go

/-- The value of a digit character, for reading a decimal numeral back. -/
theorem digitChar_toNat (d : Nat) (h : d < 10) : (Nat.digitChar d).toNat - 48 = d := by
  interval_cases d <;> rfl

/-- Reading back the digits that `Nat.toDigitsCore` puts in front of `ds`. -/
theorem toDigitsCore_foldl (fuel : Nat) :
    ∀ (n : Nat) (ds : List Char), n < fuel →
      (Nat.toDigitsCore 10 fuel n ds).foldl (fun acc c => acc * 10 + (c.toNat - 48)) 0 =
        ds.foldl (fun acc c => acc * 10 + (c.toNat - 48)) n := by
  induction fuel with
  | zero => intro n ds h; omega
  | succ fuel ih =>
    intro n ds h
    have hd := digitChar_toNat (n % 10) (Nat.mod_lt _ (by decide))
    unfold Nat.toDigitsCore
    by_cases h0 : n / 10 = 0
    · have hlt : n < 10 := by omega
      simp only [h0, if_true, List.foldl_cons, hd]
      congr 1
      omega
    · simp only [h0, if_false]
      rw [ih (n / 10) _ (by omega)]
      simp only [List.foldl_cons, hd]
      congr 1
      omega

/-- A decimal numeral determines its number. -/
theorem repr_injective : Function.Injective Nat.repr := by
  intro a b h
  have key : ∀ n : Nat,
      (Nat.repr n).data.foldl (fun acc c => acc * 10 + (c.toNat - 48)) 0 = n := by
    intro n
    have := toDigitsCore_foldl (n + 1) n [] (Nat.lt_succ_self n)
    simpa [Nat.repr, Nat.toDigits, List.asString] using this
  rw [← key a, ← key b, h]

/-- Formatting with `%d` between a fixed prefix and a fixed suffix keeps
different non-negative numbers apart. -/
theorem fmtD_between_injective (pre post : String) (a b : Nat)
    (h : pre ++ fmtD (a : Int) ++ post = pre ++ fmtD (b : Int) ++ post) : a = b := by
  have hd := congrArg String.data h
  simp only [String.data_append, List.append_assoc] at hd
  have h1 := List.append_cancel_left hd
  have h2 := List.append_cancel_right h1
  have h3 : fmtD (a : Int) = fmtD (b : Int) := String.ext h2
  exact repr_injective (by simpa [fmtD] using h3)

end Go
/-! ## Task generation -/

namespace kioperf

/-- The loop appends one task per remaining iteration, as long as the channel
has room for them. -/
theorem fillTasks_eq (common : CommonConfig) (hf : 1 ≤ common.Files) :
    ∀ (n : Nat) (i : Nat) (tasks : List String),
      ((tasks.length + n : Nat) : Int) ≤ common.Iterations →
      fillTasks common n i tasks =
        some (tasks ++ (List.range n).map
          (fun k => taskName common.Path (((i + k) % common.Files.toNat : Nat) : Int))) := by
  intro n
  induction n with
  | zero => intro i tasks _; simp [fillTasks]
  | succ n ih =>
    intro i tasks hlen
    have hne : common.Files ≠ 0 := by omega
    have hroom : (tasks.length : Int) < common.Iterations := by push_cast at hlen; omega
    have hmod : Int.tmod (i : Int) common.Files = ((i % common.Files.toNat : Nat) : Int) := by
      rw [Int.tmod_eq_emod (by omega) (by omega)]
      have : common.Files = (common.Files.toNat : Int) := by omega
      rw [this]; simp
    have hstep := ih (i + 1) (tasks ++ [taskName common.Path (Int.tmod i common.Files)])
      (by simp; push_cast at hlen; omega)
    simp only [fillTasks, hne, if_false, Go.chanSend, hroom, if_true]
    have hcast : ((i : Int) + 1) = ((i + 1 : Nat) : Int) := by push_cast; rfl
    rw [hcast, hstep, hmod, List.range_succ_eq_map]
    simp [List.map_map, Function.comp_def, Nat.add_assoc, Nat.add_comm 1]

end kioperf

namespace ioperf

/-- The loop appends one task per remaining iteration, as long as the channel
has room for them. -/
theorem fillTasks_dirPath (config : Config) (hf : 1 ≤ config.Files) :
    ∀ (n : Nat) (i : Nat) (tasks : List String),
      ((tasks.length + n : Nat) : Int) ≤ config.Iterations →
      fillTasks config n i tasks =
        some (tasks ++ (List.range n).map
          (fun k => taskName config.DirPath (((i + k) % config.Files.toNat : Nat) : Int))) := by
  intro n
  induction n with
  | zero => intro i tasks _; simp [fillTasks]
  | succ n ih =>
    intro i tasks hlen
    have hne : config.Files ≠ 0 := by omega
    have hroom : (tasks.length : Int) < config.Iterations := by push_cast at hlen; omega
    have hmod : Int.tmod (i : Int) config.Files = ((i % config.Files.toNat : Nat) : Int) := by
      rw [Int.tmod_eq_emod (by omega) (by omega)]
      have : config.Files = (config.Files.toNat : Int) := by omega
      rw [this]; simp
    have hstep := ih (i + 1) (tasks ++ [taskName config.DirPath (Int.tmod i config.Files)])
      (by simp; push_cast at hlen; omega)
    simp only [fillTasks, hne, if_false, Go.chanSend, hroom, if_true]
    have hcast : ((i : Int) + 1) = ((i + 1 : Nat) : Int) := by push_cast; rfl
    rw [hcast, hstep, hmod, List.range_succ_eq_map]
    simp [List.map_map, Function.comp_def, Nat.add_assoc, Nat.add_comm 1]

/-- The queue that the task loop leaves, as a list over the iteration numbers. -/
theorem taskLoop_dirPath (config : Config) (hf : 1 ≤ config.Files) :
    taskLoop config = some ((List.range config.Iterations.toNat).map
      (fun k => taskName config.DirPath ((k % config.Files.toNat : Nat) : Int))) := by
  by_cases hn : 0 ≤ config.Iterations
  · have h := fillTasks_dirPath config hf config.Iterations.toNat 0 [] (by simp; omega)
    simpa [taskLoop] using h
  · have h0 : config.Iterations.toNat = 0 := by omega
    simp [taskLoop, h0, fillTasks]

end ioperf

namespace kioperf

/-- The queue that the task loop leaves, as a list over the iteration numbers. -/
theorem taskLoop_eq (common : CommonConfig) (hf : 1 ≤ common.Files) :
    taskLoop common = some ((List.range common.Iterations.toNat).map
      (fun k => taskName common.Path ((k % common.Files.toNat : Nat) : Int))) := by
  by_cases hn : 0 ≤ common.Iterations
  · have h := fillTasks_eq common hf common.Iterations.toNat 0 [] (by simp; omega)
    simpa [taskLoop] using h
  · have h0 : common.Iterations.toNat = 0 := by omega
    simp [taskLoop, h0, fillTasks]

/-- The workers of `DoTest` start on the queue that the task loop leaves,
unless the `make` calls panic or the run is a dry run. -/
theorem generateTasks_eq_taskLoop (common : CommonConfig)
    (hn : 0 ≤ common.Iterations) (hdry : common.DryRun = false) :
    generateTasks common = taskLoop common := by
  have hneg : ¬ (common.Iterations < 0) := by omega
  simp [generateTasks, hneg, hdry]

/-- C1: with `Files >= 1`, the task loop of `DoTest` ends with exactly
`Iterations` tasks on the queue, and the task at position `i` is the string
`<Path>/kioperf-file-<i mod Files>.dat`; the same holds in package `ioperf`
with `<DirPath>/ioperf-file-<i mod Files>.dat`. -/
theorem C1_task_queue (common : CommonConfig) (config : ioperf.Config)
    (hk : 1 ≤ common.Files) (hi : 1 ≤ config.Files) :
    (∃ tasks, taskLoop common = some tasks ∧
      tasks.length = common.Iterations.toNat ∧
      ∀ i : Nat, (i : Int) < common.Iterations →
        tasks[i]? = some (common.Path ++ "/kioperf-file-" ++
          Nat.repr (i % common.Files.toNat) ++ ".dat")) ∧
    (∃ tasks, ioperf.taskLoop config = some tasks ∧
      tasks.length = config.Iterations.toNat ∧
      ∀ i : Nat, (i : Int) < config.Iterations →
        tasks[i]? = some (config.DirPath ++ "/ioperf-file-" ++
          Nat.repr (i % config.Files.toNat) ++ ".dat")) := by
  refine ⟨⟨_, taskLoop_eq common hk, by simp, ?_⟩,
    ⟨_, ioperf.taskLoop_dirPath config hi, by simp, ?_⟩⟩
  · intro i hi'
    have hlt : i < common.Iterations.toNat := by omega
    simp [List.getElem?_map, List.getElem?_range hlt, taskName, Go.fmtD]
  · intro i hi'
    have hlt : i < config.Iterations.toNat := by omega
    simp [List.getElem?_map, List.getElem?_range hlt, ioperf.taskName, Go.fmtD]

/-- C1 at a run of five iterations over two files. -/
theorem C1_task_queue_witness :
    (∃ tasks, taskLoop ⟨"disk", "read", 5, 2, 1, "d", 2, false, false, false⟩ = some tasks ∧
      tasks.length = (5 : Int).toNat ∧
      ∀ i : Nat, (i : Int) < 5 →
        tasks[i]? = some ("d" ++ "/kioperf-file-" ++ Nat.repr (i % (2 : Int).toNat) ++ ".dat")) ∧
    (∃ tasks, ioperf.taskLoop ⟨"disk", "read", 5, 2, "t", "", 2, 1, false, false, false⟩
        = some tasks ∧
      tasks.length = (5 : Int).toNat ∧
      ∀ i : Nat, (i : Int) < 5 →
        tasks[i]? = some ("t" ++ "/ioperf-file-" ++ Nat.repr (i % (2 : Int).toNat) ++ ".dat")) :=
  C1_task_queue ⟨"disk", "read", 5, 2, 1, "d", 2, false, false, false⟩
    ⟨"disk", "read", 5, 2, "t", "", 2, 1, false, false, false⟩
    (by decide) (by decide)

end kioperf

/-! ## Distribution of the tasks over the files -/

namespace kioperf

/-- Two task names under one path are equal only for equal file indices. -/
theorem taskName_injective (path : String) (a b : Nat)
    (h : taskName path (a : Int) = taskName path (b : Int)) : a = b := by
  unfold taskName at h
  exact Go.fmtD_between_injective (path ++ "/kioperf-file-") ".dat" a b h

/-- The number of tasks that target file `j` among the first `n` iterations. -/
theorem count_taskName (path : String) (f n j : Nat) (hf : 0 < f) (hj : j < f) :
    ((List.range n).map (fun k => taskName path ((k % f : Nat) : Int))).count
      (taskName path (j : Int)) = n / f + if j < n % f then 1 else 0 := by
  rw [List.count, List.countP_map]
  have hfun : ((fun x => x == taskName path (j : Int)) ∘
      fun k : Nat => taskName path ((k % f : Nat) : Int)) = fun k => decide (k ≡ j [MOD f]) := by
    funext k
    simp only [Function.comp, Nat.ModEq, Nat.mod_eq_of_lt hj]
    by_cases hk : k % f = j
    · simp [hk]
    · have : taskName path ((k % f : Nat) : Int) ≠ taskName path (j : Int) :=
        fun h => hk (taskName_injective path _ _ h)
      simpa [hk] using this
  rw [hfun]
  have h := Nat.count_modEq_card n hf j
  rw [Nat.mod_eq_of_lt hj] at h
  rw [← h, Nat.count]

/-- The set of tasks generated by `n` iterations over `f` files. -/
theorem toFinset_tasks (path : String) (f n : Nat) (hf : 0 < f) :
    ((List.range n).map (fun k => taskName path ((k % f : Nat) : Int))).toFinset =
      (Finset.range (min n f)).image (fun j : Nat => taskName path (j : Int)) := by
  ext x
  simp only [List.mem_toFinset, List.mem_map, List.mem_range, Finset.mem_image, Finset.mem_range]
  constructor
  · rintro ⟨k, hk, rfl⟩
    refine ⟨k % f, ?_, rfl⟩
    have h1 : k % f < f := Nat.mod_lt _ hf
    have h2 : k % f ≤ k := Nat.mod_le _ _
    exact lt_min (by omega) h1
  · rintro ⟨j, hj, rfl⟩
    have hjn : j < n := lt_of_lt_of_le hj (min_le_left _ _)
    have hjf : j < f := lt_of_lt_of_le hj (min_le_right _ _)
    exact ⟨j, hjn, by rw [Nat.mod_eq_of_lt hjf]⟩

/-- C2: with `Iterations >= 0` and `Files >= 1`, every file index `j` below
`Files` is the target of `floor(Iterations/Files)` or `ceil(Iterations/Files)`
tasks of the queue that `DoTest` fills, two indices differ by at most one in
that number, and the queue holds `min(Iterations, Files)` distinct paths. -/
theorem C2_even_distribution (common : CommonConfig)
    (hn : 0 ≤ common.Iterations) (hf : 1 ≤ common.Files) :
    ∃ tasks, taskLoop common = some tasks ∧
      (∀ j : Nat, (j : Int) < common.Files →
        ((tasks.count (taskName common.Path j) : Nat) : Int) = common.Iterations / common.Files ∨
        ((tasks.count (taskName common.Path j) : Nat) : Int) =
          (common.Iterations + common.Files - 1) / common.Files) ∧
      (∀ j k : Nat, (j : Int) < common.Files → (k : Int) < common.Files →
        tasks.count (taskName common.Path j) ≤ tasks.count (taskName common.Path k) + 1) ∧
      ((tasks.dedup.length : Nat) : Int) = min common.Iterations common.Files := by
  obtain ⟨n, hn'⟩ : ∃ n : Nat, common.Iterations = (n : Int) := ⟨_, (Int.toNat_of_nonneg hn).symm⟩
  obtain ⟨f, hf'⟩ : ∃ f : Nat, common.Files = (f : Int) :=
    ⟨_, (Int.toNat_of_nonneg (by omega)).symm⟩
  have hfpos : 0 < f := by omega
  refine ⟨_, taskLoop_eq common hf, ?_, ?_, ?_⟩
  · intro j hj
    have hjf : j < f := by omega
    rw [hn', hf', Int.toNat_natCast, Int.toNat_natCast, count_taskName _ f n j hfpos hjf]
    have hdm := Nat.div_add_mod n f
    have hml := Nat.mod_lt n hfpos
    by_cases hlt : j < n % f
    · right
      have hceil : (n + f - 1) / f = n / f + 1 := by
        have : n + f - 1 = (n % f - 1) + f * (n / f + 1) := by
          rw [Nat.mul_add, Nat.mul_one]; omega
        rw [this, Nat.add_mul_div_left _ _ hfpos, Nat.div_eq_of_lt (by omega)]
        omega
      have hcast : ((n : Int) + (f : Int) - 1) = ((n + f - 1 : Nat) : Int) := by omega
      rw [hcast, ← Int.natCast_div, hceil]
      simp [hlt]
    · left
      rw [← Int.natCast_div]
      simp [hlt]
  · intro j k hj hk
    have hjf : j < f := by omega
    have hkf : k < f := by omega
    rw [hn', hf', Int.toNat_natCast, Int.toNat_natCast, count_taskName _ f n j hfpos hjf,
      count_taskName _ f n k hfpos hkf]
    split_ifs <;> omega
  · rw [hn', hf', Int.toNat_natCast, Int.toNat_natCast]
    have hcard := congrArg Finset.card (toFinset_tasks common.Path f n hfpos)
    rw [List.card_toFinset, Finset.card_image_of_injective _
      (fun a b h => taskName_injective common.Path a b h), Finset.card_range] at hcard
    rw [hcard]
    omega

/-- C2 at the run of the end-to-end scenario: four iterations over two files. -/
theorem C2_even_distribution_witness :
    ∃ tasks, taskLoop ⟨"disk", "write", 4, 2, 1, "d", 2, false, false, false⟩ = some tasks ∧
      (∀ j : Nat, (j : Int) < 2 →
        ((tasks.count (taskName "d" j) : Nat) : Int) = 4 / 2 ∨
        ((tasks.count (taskName "d" j) : Nat) : Int) = (4 + 2 - 1) / 2) ∧
      (∀ j k : Nat, (j : Int) < 2 → (k : Int) < 2 →
        tasks.count (taskName "d" j) ≤ tasks.count (taskName "d" k) + 1) ∧
      ((tasks.dedup.length : Nat) : Int) = min 4 2 :=
  C2_even_distribution ⟨"disk", "write", 4, 2, 1, "d", 2, false, false, false⟩
    (by decide) (by decide)

end kioperf

/-! ## 64-bit arithmetic -/

namespace Go

/-- A value inside the 64-bit range is left alone by the wrap-around. -/
theorem wrapInt64_of_fits (x : Int) (hlo : -2 ^ 63 ≤ x) (hhi : x < 2 ^ 63) :
    wrapInt64 x = x := by
  unfold wrapInt64
  rw [Int.bmod_def]
  norm_num at hlo hhi ⊢
  omega

/-- Wrapping an intermediate sum does not change the wrapped total. -/
theorem wrapInt64_add_wrap (x y : Int) : wrapInt64 (wrapInt64 x + y) = wrapInt64 (x + y) := by
  unfold wrapInt64
  exact Int.bmod_add_bmod_congr

end Go

/-! ## Percentile indices -/

namespace kioperf

/-- The percentile index without the wrap-around and the truncation, for a
product that fits in 64 bits. -/
theorem percentileIndex_eq (p iterations : Int) (hp0 : 0 ≤ p) (hp : p ≤ 99)
    (h1 : 1 ≤ iterations) (hfit : 99 * iterations < 2 ^ 63) :
    percentileIndex p iterations = p * iterations / 100 := by
  have hnn : 0 ≤ p * iterations := Int.mul_nonneg hp0 (by omega)
  have hle : p * iterations ≤ 99 * iterations := Int.mul_le_mul_of_nonneg_right hp (by omega)
  unfold percentileIndex
  rw [Go.wrapInt64_of_fits _ (by omega) (by omega), Int.tdiv_eq_ediv hnn (by decide)]

/-- C4: for `Iterations >= 1` whose product with 99 fits in a 64-bit integer
(every run that gets past the `make` calls of `DoTest`), and every percentile
`p` of the ladder, the index `p*Iterations/100` lies in `[0, Iterations-1]`: it
equals its clamped value and reading a list of `Iterations` results at it
does not panic.  Package `ioperf` computes the same index. -/
theorem C4_percentile_index_in_range (iterations p : Int)
    (h1 : 1 ≤ iterations) (hfit : 99 * iterations < 2 ^ 63) (hp : p ∈ ladder) :
    0 ≤ percentileIndex p iterations ∧
    percentileIndex p iterations ≤ iterations - 1 ∧
    max 0 (min (percentileIndex p iterations) (iterations - 1)) = percentileIndex p iterations ∧
    ioperf.percentileIndex p iterations = percentileIndex p iterations ∧
    ∀ resultList : List Result, (resultList.length : Int) = iterations →
      ∃ r, Go.sliceIndex resultList (percentileIndex p iterations) = some r := by
  have hp0 : 0 ≤ p ∧ p ≤ 99 := by
    simp only [ladder, List.mem_cons, List.mem_singleton, List.not_mem_nil, or_false] at hp
    omega
  have heq := percentileIndex_eq p iterations hp0.1 hp0.2 h1 hfit
  have hnn : 0 ≤ p * iterations := Int.mul_nonneg hp0.1 (by omega)
  have hle : p * iterations ≤ 99 * iterations :=
    Int.mul_le_mul_of_nonneg_right hp0.2 (by omega)
  have hlo : 0 ≤ percentileIndex p iterations := by rw [heq]; omega
  have hhi : percentileIndex p iterations ≤ iterations - 1 := by rw [heq]; omega
  refine ⟨hlo, hhi, by omega, rfl, ?_⟩
  intro resultList hlen
  have hlt : (percentileIndex p iterations).toNat < resultList.length := by omega
  refine ⟨resultList[(percentileIndex p iterations).toNat], ?_⟩
  unfold Go.sliceIndex
  rw [if_pos ⟨hlo, by omega⟩]
  exact List.getElem?_eq_getElem hlt

/-- C4 at percentile 99 of a run of 250 iterations. -/
theorem C4_percentile_index_in_range_witness :
    0 ≤ percentileIndex 99 250 ∧
    percentileIndex 99 250 ≤ 250 - 1 ∧
    max 0 (min (percentileIndex 99 250) (250 - 1)) = percentileIndex 99 250 ∧
    ioperf.percentileIndex 99 250 = percentileIndex 99 250 ∧
    ∀ resultList : List Result, (resultList.length : Int) = 250 →
      ∃ r, Go.sliceIndex resultList (percentileIndex 99 250) = some r :=
  C4_percentile_index_in_range 250 99 (by decide) (by decide) (by decide)

end kioperf

/-! ## The aggregation scan -/

namespace kioperf

/-- The counters of the scan, from any starting value. -/
theorem foldl_add_counts (resultList : List Result) :
    ∀ acc : Summary,
      (resultList.foldl Summary.add acc).files = acc.files + (resultList.length : Int) ∧
      (resultList.foldl Summary.add acc).succeeded =
        acc.succeeded + ((resultList.countP (fun r => r.Succeeded) : Nat) : Int) ∧
      (resultList.foldl Summary.add acc).failed =
        acc.failed + ((resultList.countP (fun r => !r.Succeeded) : Nat) : Int) := by
  induction resultList with
  | nil => intro acc; simp
  | cons r rest ih =>
    intro acc
    obtain ⟨h1, h2, h3⟩ := ih (acc.add r)
    rw [List.foldl_cons, h1, h2, h3]
    cases hr : r.Succeeded <;>
      simp [Summary.add, hr, List.countP_cons] <;> omega

/-- The byte total of the scan, from any starting value. -/
theorem foldl_add_bytes (resultList : List Result) :
    ∀ acc : Summary,
      (resultList.foldl Summary.add acc).bytes =
        if resultList = [] then acc.bytes
        else Go.wrapInt64 (acc.bytes + (resultList.map (fun r => r.Bytes)).sum) := by
  induction resultList with
  | nil => intro acc; simp
  | cons r rest ih =>
    intro acc
    rw [List.foldl_cons, ih (acc.add r)]
    by_cases hrest : rest = []
    · subst hrest
      simp [Summary.add]
    · simp only [hrest, if_false, Summary.add, List.map_cons, List.sum_cons, reduceCtorEq]
      rw [Go.wrapInt64_add_wrap, Int.add_assoc]

/-- The byte total of the scan is the wrapped sum of the byte counts. -/
theorem summarize_bytes (resultList : List Result) :
    (summarize resultList).bytes =
      Go.wrapInt64 ((resultList.map (fun r => r.Bytes)).sum) := by
  unfold summarize
  rw [foldl_add_bytes]
  by_cases h : resultList = []
  · subst h
    simp [Go.wrapInt64]
  · simp [h]

/-- The scan counts every outcome in `files`. -/
theorem summarize_files (resultList : List Result) :
    (summarize resultList).files = (resultList.length : Int) := by
  obtain ⟨h1, _, _⟩ := foldl_add_counts resultList ⟨0, 0, 0, 0, maxFloat64, 0, 0⟩
  unfold summarize
  rw [h1]
  simp

/-- Every outcome is either a succeeded or a failed one. -/
theorem succeeded_failed_length (resultList : List Result) :
    (resultList.filter (fun r => r.Succeeded = true)).length +
      (resultList.filter (fun r => r.Succeeded = false)).length = resultList.length := by
  induction resultList with
  | nil => rfl
  | cons r rest ih =>
    cases hr : r.Succeeded <;> simp [List.filter_cons, hr] at ih ⊢ <;> omega

/-- C6: over a result list of `Iterations` outcomes the scan of `DoTest`
reports `Files = Iterations`, `Succeeded` the number of outcomes with
`Succeeded = true` and `Failed` the number with `Succeeded = false`, hence
`Succeeded + Failed = Files = Iterations`; when every outcome failed,
`Failed = Iterations`. -/
theorem C6_scan_counts (resultList : List Result) (iterations : Int)
    (hlen : (resultList.length : Int) = iterations) :
    (summarize resultList).files = iterations ∧
    (summarize resultList).succeeded =
      ((resultList.filter (fun r => r.Succeeded = true)).length : Int) ∧
    (summarize resultList).failed =
      ((resultList.filter (fun r => r.Succeeded = false)).length : Int) ∧
    (summarize resultList).succeeded + (summarize resultList).failed =
      (summarize resultList).files ∧
    ((∀ r ∈ resultList, r.Succeeded = false) → (summarize resultList).failed = iterations) := by
  obtain ⟨h1, h2, h3⟩ := foldl_add_counts resultList ⟨0, 0, 0, 0, maxFloat64, 0, 0⟩
  have hs : (summarize resultList).succeeded =
      ((resultList.filter (fun r => r.Succeeded = true)).length : Int) := by
    unfold summarize
    rw [h2, List.countP_eq_length_filter]
    simp
  have hf : (summarize resultList).failed =
      ((resultList.filter (fun r => r.Succeeded = false)).length : Int) := by
    unfold summarize
    rw [h3, List.countP_eq_length_filter]
    simp
  have hfiles : (summarize resultList).files = iterations := by
    unfold summarize
    rw [h1, ← hlen]
    simp
  have hsplit := succeeded_failed_length resultList
  refine ⟨hfiles, hs, hf, ?_, ?_⟩
  · rw [hs, hf, hfiles, ← hlen]
    exact_mod_cast hsplit
  · intro hall
    rw [hf, ← hlen, List.filter_eq_self.mpr (by simpa using hall)]

/-- C6 at a list of three outcomes, one of them failed. -/
theorem C6_scan_counts_witness :
    (summarize [⟨"disk-read", 0, "a", true, 10, 0, 3, 1⟩, ⟨"disk-read", 1, "b", false, 5, 0, 1, 0⟩,
      ⟨"disk-read", 0, "a", true, 7, 0, 2, 1⟩]).files = 3 ∧
    (summarize [⟨"disk-read", 0, "a", true, 10, 0, 3, 1⟩, ⟨"disk-read", 1, "b", false, 5, 0, 1, 0⟩,
      ⟨"disk-read", 0, "a", true, 7, 0, 2, 1⟩]).succeeded = 2 ∧
    (summarize [⟨"disk-read", 0, "a", true, 10, 0, 3, 1⟩, ⟨"disk-read", 1, "b", false, 5, 0, 1, 0⟩,
      ⟨"disk-read", 0, "a", true, 7, 0, 2, 1⟩]).failed = 1 :=
  have h := C6_scan_counts [⟨"disk-read", 0, "a", true, 10, 0, 3, 1⟩,
    ⟨"disk-read", 1, "b", false, 5, 0, 1, 0⟩, ⟨"disk-read", 0, "a", true, 7, 0, 2, 1⟩] 3 (by decide)
  ⟨h.1, by simpa using h.2.1, by simpa using h.2.2.1⟩

/-- C7: the total `Bytes` that `DoTest` reports is the sum of the `Bytes`
field over all outcomes, the failed ones included (it is the sum over the
succeeded outcomes plus the sum over the failed ones), computed in 64-bit
arithmetic: it equals the sum whenever the sum fits in an `int64`. -/
theorem C7_total_bytes (resultList : List Result) :
    (summarize resultList).bytes = Go.wrapInt64 ((resultList.map (fun r => r.Bytes)).sum) ∧
    ((resultList.map (fun r => r.Bytes)).sum =
      ((resultList.filter (fun r => r.Succeeded = true)).map (fun r => r.Bytes)).sum +
      ((resultList.filter (fun r => r.Succeeded = false)).map (fun r => r.Bytes)).sum) ∧
    (-2 ^ 63 ≤ (resultList.map (fun r => r.Bytes)).sum →
      (resultList.map (fun r => r.Bytes)).sum < 2 ^ 63 →
      (summarize resultList).bytes = (resultList.map (fun r => r.Bytes)).sum) := by
  refine ⟨summarize_bytes resultList, ?_, ?_⟩
  · induction resultList with
    | nil => rfl
    | cons r rest ih =>
      cases hr : r.Succeeded <;> simp [List.filter_cons, hr] at ih ⊢ <;> omega
  · intro hlo hhi
    rw [summarize_bytes, Go.wrapInt64_of_fits _ hlo hhi]

/-- C7 at a list of three outcomes, one of them failed after 5 bytes. -/
theorem C7_total_bytes_witness :
    (summarize [⟨"disk-read", 0, "a", true, 10, 0, 3, 1⟩, ⟨"disk-read", 1, "b", false, 5, 0, 1, 0⟩,
      ⟨"disk-read", 0, "a", true, 7, 0, 2, 1⟩]).bytes = 22 :=
  (C7_total_bytes [⟨"disk-read", 0, "a", true, 10, 0, 3, 1⟩,
    ⟨"disk-read", 1, "b", false, 5, 0, 1, 0⟩, ⟨"disk-read", 0, "a", true, 7, 0, 2, 1⟩]).2.2
    (by decide) (by decide)

end kioperf

/-! ## Percentile values -/

namespace kioperf

/-- The minimum of the scan, from any starting value: a lower bound of the
start and of every duration, and one of them. -/
theorem foldl_add_min (resultList : List Result) :
    ∀ acc : Summary,
      (resultList.foldl Summary.add acc).min ≤ acc.min ∧
      (∀ r ∈ resultList, (resultList.foldl Summary.add acc).min ≤ r.Duration) ∧
      ((resultList.foldl Summary.add acc).min = acc.min ∨
        ∃ r ∈ resultList, (resultList.foldl Summary.add acc).min = r.Duration) := by
  induction resultList with
  | nil => intro acc; simp
  | cons r rest ih =>
    intro acc
    obtain ⟨h1, h2, h3⟩ := ih (acc.add r)
    have hmin : (acc.add r).min = if acc.min > r.Duration then r.Duration else acc.min := rfl
    rw [List.foldl_cons]
    by_cases hgt : acc.min > r.Duration
    · rw [hmin, if_pos hgt] at h1 h3
      refine ⟨le_trans h1 (le_of_lt hgt), ?_, ?_⟩
      · intro x hx
        rcases List.mem_cons.mp hx with rfl | hx
        · exact h1
        · exact h2 x hx
      · rcases h3 with h3 | ⟨x, hx, h3⟩
        · exact Or.inr ⟨r, List.mem_cons_self _ _, h3⟩
        · exact Or.inr ⟨x, List.mem_cons_of_mem _ hx, h3⟩
    · rw [hmin, if_neg hgt] at h1 h3
      refine ⟨h1, ?_, ?_⟩
      · intro x hx
        rcases List.mem_cons.mp hx with rfl | hx
        · exact le_trans h1 (not_lt.mp hgt)
        · exact h2 x hx
      · rcases h3 with h3 | ⟨x, hx, h3⟩
        · exact Or.inl h3
        · exact Or.inr ⟨x, List.mem_cons_of_mem _ hx, h3⟩

/-- The `Min` of the statistics block is the least duration of a non-empty
result list of finite durations. -/
theorem summarize_min (resultList : List Result) (hne : resultList ≠ [])
    (hfin : ∀ r ∈ resultList, r.Duration ≤ maxFloat64) :
    (∀ r ∈ resultList, (summarize resultList).min ≤ r.Duration) ∧
    ∃ r ∈ resultList, (summarize resultList).min = r.Duration := by
  obtain ⟨_, h2, h3⟩ := foldl_add_min resultList ⟨0, 0, 0, 0, maxFloat64, 0, 0⟩
  refine ⟨h2, ?_⟩
  rcases h3 with h3 | h3
  · obtain ⟨r, hr⟩ := List.exists_mem_of_ne_nil resultList hne
    exact ⟨r, hr, le_antisymm (h2 r hr) (by
      have : (summarize resultList).min = maxFloat64 := h3
      rw [this]; exact hfin r hr)⟩
  · exact h3

/-- A monadic map over `Option` whose every step succeeds. -/
theorem mapM_option_eq_some {α β : Type} (f : α → Option β) (g : α → β) (l : List α)
    (h : ∀ a ∈ l, f a = some (g a)) : l.mapM f = some (l.map g) := by
  induction l with
  | nil => rfl
  | cons a rest ih =>
    rw [List.mapM_cons, h a (List.mem_cons_self _ _),
      ih (fun b hb => h b (List.mem_cons_of_mem _ hb))]
    rfl

/-- Durations do not decrease along a list that `sort.Slice` has sorted. -/
theorem sorted_duration_mono (sorted : List Result)
    (hs : sorted.Pairwise (fun a b => lessDuration b a = false))
    (i j : Nat) (hij : i ≤ j) (hj : j < sorted.length) :
    (sorted.getD i Result.zero).Duration ≤ (sorted.getD j Result.zero).Duration := by
  have hi : i < sorted.length := lt_of_le_of_lt hij hj
  rw [List.getD_eq_getElem _ _ hi, List.getD_eq_getElem _ _ hj]
  rcases Nat.eq_or_lt_of_le hij with rfl | hlt
  · exact le_refl _
  · have h := (List.pairwise_iff_getElem.mp hs) i j hi hj hlt
    simpa [lessDuration] using h

/-- C5: for a result list of `Iterations >= 1` outcomes with finite durations
(and `99 * Iterations` inside the 64-bit range), sorted ascending by
`Duration` as `sort.Slice` leaves it, the percentile loop of `DoTest` prints
twelve values without a panic, the first of them (P0) is the `Min` of the
statistics block, which is the least duration of the set, and the values are
non-decreasing from P0 to P99. -/
theorem C5_percentiles_monotone (resultList sorted : List Result) (iterations : Int)
    (hlen : (resultList.length : Int) = iterations) (h1 : 1 ≤ iterations)
    (hfit : 99 * iterations < 2 ^ 63)
    (hsort : SortedByDuration resultList sorted)
    (hfin : ∀ r ∈ resultList, r.Duration ≤ maxFloat64) :
    ∃ ps : List ℚ, percentiles sorted iterations = some ps ∧
      ps.length = 12 ∧
      ps.head? = some (summarize resultList).min ∧
      (∀ r ∈ resultList, (summarize resultList).min ≤ r.Duration) ∧
      (∃ r ∈ resultList, (summarize resultList).min = r.Duration) ∧
      ps.Pairwise (fun a b => a ≤ b) := by
  obtain ⟨hperm, hpair⟩ := hsort
  have hslen : (sorted.length : Int) = iterations := by rw [hperm.length_eq]; exact hlen
  have hne : resultList ≠ [] := by
    intro h; rw [h] at hlen; simp at hlen; omega
  obtain ⟨hmin_le, rmin, hrmin, hmin_eq⟩ := summarize_min resultList hne hfin
  have hidx : ∀ p ∈ ladder, percentileIndex p iterations = p * iterations / 100 ∧
      0 ≤ p * iterations / 100 ∧ p * iterations / 100 < iterations := by
    intro p hp
    have hp0 : 0 ≤ p ∧ p ≤ 99 := by
      simp only [ladder, List.mem_cons, List.mem_singleton, List.not_mem_nil, or_false] at hp
      omega
    have hnn : 0 ≤ p * iterations := Int.mul_nonneg hp0.1 (by omega)
    have hle : p * iterations ≤ 99 * iterations :=
      Int.mul_le_mul_of_nonneg_right hp0.2 (by omega)
    exact ⟨percentileIndex_eq p iterations hp0.1 hp0.2 h1 hfit, by omega, by omega⟩
  have hval : ∀ p ∈ ladder, pDuration sorted iterations p =
      some ((sorted.getD (p * iterations / 100).toNat Result.zero).Duration) := by
    intro p hp
    obtain ⟨he, hlo, hhi⟩ := hidx p hp
    have hlt : (p * iterations / 100).toNat < sorted.length := by omega
    unfold pDuration Go.sliceIndex
    rw [he, if_pos ⟨hlo, by omega⟩, List.getElem?_eq_getElem hlt, List.getD_eq_getElem _ _ hlt]
    rfl
  refine ⟨_, mapM_option_eq_some _ _ ladder hval, by simp [ladder], ?_, hmin_le,
    ⟨rmin, hrmin, hmin_eq⟩, ?_⟩
  · have hpos : 0 < sorted.length := by omega
    have h0 : (sorted.getD 0 Result.zero) ∈ resultList := by
      rw [List.getD_eq_getElem _ _ hpos]
      exact hperm.subset (List.getElem_mem _)
    have hrs : rmin ∈ sorted := hperm.symm.subset hrmin
    obtain ⟨k, hk, hkeq⟩ := List.getElem_of_mem hrs
    have hle : (sorted.getD 0 Result.zero).Duration ≤ rmin.Duration := by
      have := sorted_duration_mono sorted hpair 0 k (Nat.zero_le _) hk
      rwa [List.getD_eq_getElem _ _ hk, hkeq] at this
    have heq : (sorted.getD 0 Result.zero).Duration = (summarize resultList).min :=
      le_antisymm (by rw [hmin_eq]; exact hle) (hmin_le _ h0)
    rw [← heq]
    simp [ladder]
  · rw [List.pairwise_map]
    have hlad : ladder.Pairwise (fun a b => a < b) := by decide
    refine List.Pairwise.imp_of_mem ?_ hlad
    intro p q hp hq hpq
    obtain ⟨_, hlo, _⟩ := hidx p hp
    obtain ⟨_, _, hhi⟩ := hidx q hq
    have hmul : p * iterations ≤ q * iterations :=
      Int.mul_le_mul_of_nonneg_right (le_of_lt hpq) (by omega)
    exact sorted_duration_mono sorted hpair _ _ (by omega) (by omega)

/-- C5 at three outcomes that arrived out of order. -/
theorem C5_percentiles_monotone_witness :
    ∃ ps : List ℚ,
      percentiles [⟨"disk-read", 1, "b", false, 5, 0, 1, 0⟩, ⟨"disk-read", 0, "a", true, 7, 0, 2, 1⟩,
        ⟨"disk-read", 0, "a", true, 10, 0, 3, 1⟩] 3 = some ps ∧
      ps.length = 12 ∧
      ps.head? = some (summarize [⟨"disk-read", 0, "a", true, 7, 0, 2, 1⟩,
        ⟨"disk-read", 1, "b", false, 5, 0, 1, 0⟩, ⟨"disk-read", 0, "a", true, 10, 0, 3, 1⟩]).min ∧
      (∀ r ∈ [(⟨"disk-read", 0, "a", true, 7, 0, 2, 1⟩ : Result),
          ⟨"disk-read", 1, "b", false, 5, 0, 1, 0⟩, ⟨"disk-read", 0, "a", true, 10, 0, 3, 1⟩],
        (summarize [⟨"disk-read", 0, "a", true, 7, 0, 2, 1⟩,
          ⟨"disk-read", 1, "b", false, 5, 0, 1, 0⟩,
          ⟨"disk-read", 0, "a", true, 10, 0, 3, 1⟩]).min ≤ r.Duration) ∧
      (∃ r ∈ [(⟨"disk-read", 0, "a", true, 7, 0, 2, 1⟩ : Result),
          ⟨"disk-read", 1, "b", false, 5, 0, 1, 0⟩, ⟨"disk-read", 0, "a", true, 10, 0, 3, 1⟩],
        (summarize [⟨"disk-read", 0, "a", true, 7, 0, 2, 1⟩,
          ⟨"disk-read", 1, "b", false, 5, 0, 1, 0⟩,
          ⟨"disk-read", 0, "a", true, 10, 0, 3, 1⟩]).min = r.Duration) ∧
      ps.Pairwise (fun a b => a ≤ b) :=
  C5_percentiles_monotone
    [⟨"disk-read", 0, "a", true, 7, 0, 2, 1⟩, ⟨"disk-read", 1, "b", false, 5, 0, 1, 0⟩,
      ⟨"disk-read", 0, "a", true, 10, 0, 3, 1⟩]
    [⟨"disk-read", 1, "b", false, 5, 0, 1, 0⟩, ⟨"disk-read", 0, "a", true, 7, 0, 2, 1⟩,
      ⟨"disk-read", 0, "a", true, 10, 0, 3, 1⟩] 3
    (by decide) (by decide) (by decide)
    ⟨List.Perm.swap _ _ _, by simp [lessDuration]; norm_num⟩
    (by simp [maxFloat64]; norm_num)

end kioperf

/-! ## The local-file backend: writing -/

namespace Sys

/-- The length of a file after a write at an offset inside it or at its end. -/
theorem writeAt_length (content : List Nat) (off : Nat) (data : List Nat) :
    (writeAt content off data).length = max content.length (off + data.length) := by
  unfold writeAt
  simp only [List.length_append, List.length_take, List.length_replicate, List.length_drop]
  omega

end Sys

namespace kioperf

/-- The block of `diskWrite` has 1024 bytes. -/
theorem writeBlock_length : writeBlock.length = 1024 := by
  simp [writeBlock]

/-- The write loop when none of its `Write` calls fails: it runs to its end,
counts every block and leaves a file that reaches at least to the last byte
written. -/
theorem writeLoop_ok (env : Sys.OS) (data : List Nat) :
    ∀ (n k off : Nat) (content : List Nat) (bytes : Int), Go.wrapInt64 bytes = bytes →
      (∀ j, k ≤ j → j < k + n → env.writeErr j = none) →
      (writeLoop env data n k off content bytes).1 = true ∧
      (writeLoop env data n k off content bytes).2.1 =
        Go.wrapInt64 (bytes + ((n * data.length : Nat) : Int)) ∧
      (writeLoop env data n k off content bytes).2.2.length =
        max content.length (if n = 0 then 0 else off + n * data.length) := by
  intro n
  induction n with
  | zero =>
    intro k off content bytes hb _
    simp [writeLoop, hb]
  | succ n ih =>
    intro k off content bytes _ hok
    have hstep : writeLoop env data (n + 1) k off content bytes =
        writeLoop env data n (k + 1) (off + data.length) (Sys.writeAt content off data)
          (Go.wrapInt64 (bytes + (data.length : Int))) := by
      simp [writeLoop, hok k (le_refl k) (by omega)]
    obtain ⟨h1, h2, h3⟩ := ih (k + 1) (off + data.length) (Sys.writeAt content off data)
      (Go.wrapInt64 (bytes + (data.length : Int))) (by unfold Go.wrapInt64; exact Int.bmod_bmod)
      (fun j hj1 hj2 => hok j (by omega) (by omega))
    rw [hstep]
    refine ⟨h1, ?_, ?_⟩
    · rw [h2, Go.wrapInt64_add_wrap]
      congr 1
      push_cast
      ring
    · rw [h3, Sys.writeAt_length]
      have hmul : (n + 1) * data.length = n * data.length + data.length := by ring
      by_cases hn : n = 0
      · subst hn; simp
      · simp only [hn, if_false, Nat.succ_ne_zero, hmul]
        omega

/-- The write loop runs to its end only when none of its `Write` calls fails. -/
theorem writeLoop_completed (env : Sys.OS) (data : List Nat) :
    ∀ (n k off : Nat) (content : List Nat) (bytes : Int),
      (writeLoop env data n k off content bytes).1 = true →
      ∀ j, k ≤ j → j < k + n → env.writeErr j = none := by
  intro n
  induction n with
  | zero => intro k off content bytes _ j h1 h2; omega
  | succ n ih =>
    intro k off content bytes h j h1 h2
    cases hk : env.writeErr k with
    | some w => simp [writeLoop, hk] at h
    | none =>
      simp only [writeLoop, hk] at h
      rcases Nat.eq_or_lt_of_le h1 with rfl | hlt
      · exact hk
      · exact ih _ _ _ _ h j hlt (by omega)

/-- The loop count `int(blocksToWrite)` and the byte total for a size whose
byte count fits in an `int64`. -/
theorem blocks_of_size (size : Int) (h0 : 0 ≤ size) (hfit : size * 2 ^ 20 < 2 ^ 63) :
    (((Go.wrapInt64 (size * 1024)).toNat * 1024 : Nat) : Int) = size * 2 ^ 20 ∧
    Go.wrapInt64 (size * 2 ^ 20) = size * 2 ^ 20 := by
  have hb : Go.wrapInt64 (size * 1024) = size * 1024 :=
    Go.wrapInt64_of_fits _ (by omega) (by omega)
  refine ⟨?_, Go.wrapInt64_of_fits _ (by omega) hfit⟩
  rw [hb]
  push_cast
  rw [Int.toNat_of_nonneg (by omega)]
  ring

/-- A `diskWrite` whose open and `Write` calls all succeed. -/
theorem diskWrite_ok (env : Sys.OS) (fs : Sys.FileSys) (t : Sys.Timing) (path : String)
    (size : Int) (fsync : Bool) (hopen : env.openErr path = false)
    (hok : ∀ k, k < (Go.wrapInt64 (size * 1024)).toNat → env.writeErr k = none) :
    (diskWrite env fs t path size fsync).1.Succeeded = true ∧
    (diskWrite env fs t path size fsync).1.Bytes =
      Go.wrapInt64 ((((Go.wrapInt64 (size * 1024)).toNat * 1024 : Nat) : Int)) ∧
    ∃ content, (diskWrite env fs t path size fsync).2 = fs.store path content ∧
      content.length = max ((fs.file path).getD []).length
        ((Go.wrapInt64 (size * 1024)).toNat * 1024) := by
  obtain ⟨h1, h2, h3⟩ := writeLoop_ok env writeBlock (Go.wrapInt64 (size * 1024)).toNat 0 0
    ((fs.file path).getD []) 0 (by decide) (fun j _ hj => hok j (by omega))
  rw [writeBlock_length] at h2 h3
  unfold diskWrite
  simp only [hopen, Bool.false_eq_true, if_false]
  generalize writeLoop env writeBlock (Go.wrapInt64 (size * 1024)).toNat 0 0
    ((fs.file path).getD []) 0 = res at h1 h2 h3
  obtain ⟨done, bytes, content⟩ := res
  simp only at h1 h2 h3
  subst h1
  refine ⟨rfl, by simpa using h2, content, by cases fsync <;> rfl, ?_⟩
  rw [h3]
  split_ifs with hz
  · simp [hz]
  · simp

/-- A `diskWrite` reports success only when its open and all its `Write`
calls succeeded. -/
theorem diskWrite_succeeded (env : Sys.OS) (fs : Sys.FileSys) (t : Sys.Timing) (path : String)
    (size : Int) (fsync : Bool) (h : (diskWrite env fs t path size fsync).1.Succeeded = true) :
    env.openErr path = false ∧
    ∀ k, k < (Go.wrapInt64 (size * 1024)).toNat → env.writeErr k = none := by
  cases hopen : env.openErr path with
  | true => simp [diskWrite, hopen, Result.zero] at h
  | false =>
    refine ⟨rfl, ?_⟩
    have hc := writeLoop_completed env writeBlock (Go.wrapInt64 (size * 1024)).toNat 0 0
      ((fs.file path).getD []) 0
    unfold diskWrite at h
    simp only [hopen, Bool.false_eq_true, if_false] at h
    generalize writeLoop env writeBlock (Go.wrapInt64 (size * 1024)).toNat 0 0
      ((fs.file path).getD []) 0 = res at h hc
    obtain ⟨done, bytes, content⟩ := res
    cases done with
    | false => simp [Result.zero] at h
    | true => exact fun k hk => hc rfl k (Nat.zero_le _) (by omega)

end kioperf

namespace ioperf

/-- The block of `diskWrite` has 1024 bytes. -/
theorem writeBlock_size : writeBlock.length = 1024 := by
  simp [writeBlock]

/-- The write loop of `pkg/ioperf` when no `Write` call fails. -/
theorem writeLoop_counts (env : Sys.OS) (data : List Nat) (hok : ∀ k, env.writeErr k = none) :
    ∀ (n k off : Nat) (content : List Nat) (bytes : Int), Go.wrapInt64 bytes = bytes →
      (writeLoop env data n k off content bytes).1 = true ∧
      (writeLoop env data n k off content bytes).2.1 =
        Go.wrapInt64 (bytes + ((n * data.length : Nat) : Int)) := by
  intro n
  induction n with
  | zero =>
    intro k off content bytes hb
    simp [writeLoop, hb]
  | succ n ih =>
    intro k off content bytes _
    have hstep : writeLoop env data (n + 1) k off content bytes =
        writeLoop env data n (k + 1) (off + data.length) (Sys.writeAt content off data)
          (Go.wrapInt64 (bytes + (data.length : Int))) := by
      simp [writeLoop, hok k]
    obtain ⟨h1, h2⟩ := ih (k + 1) (off + data.length) (Sys.writeAt content off data)
      (Go.wrapInt64 (bytes + (data.length : Int))) (by unfold Go.wrapInt64; exact Int.bmod_bmod)
    rw [hstep]
    refine ⟨h1, ?_⟩
    rw [h2, Go.wrapInt64_add_wrap]
    congr 1
    push_cast
    ring

/-- A `diskWrite` of `pkg/ioperf` whose open and `Write` calls all succeed. -/
theorem diskWrite_counts (env : Sys.OS) (fs : Sys.FileSys) (t : Sys.Timing) (path : String)
    (size : Int) (hopen : env.openErr path = false) (hok : ∀ k, env.writeErr k = none) :
    (diskWrite env fs t path size).1.Succeeded = true ∧
    (diskWrite env fs t path size).1.Bytes =
      Go.wrapInt64 ((((Go.wrapInt64 (size * 1024)).toNat * 1024 : Nat) : Int)) := by
  obtain ⟨h1, h2⟩ := writeLoop_counts env writeBlock hok (Go.wrapInt64 (size * 1024)).toNat 0 0
    ((fs.file path).getD []) 0 (by decide)
  rw [writeBlock_size] at h2
  unfold diskWrite
  simp only [hopen, Bool.false_eq_true, if_false]
  generalize writeLoop env writeBlock (Go.wrapInt64 (size * 1024)).toNat 0 0
    ((fs.file path).getD []) 0 = res at h1 h2
  obtain ⟨done, bytes, content⟩ := res
  simp only at h1 h2
  subst h1
  exact ⟨rfl, by simpa using h2⟩

end ioperf

namespace kioperf

/-- The byte total over outcomes that all carry the same byte count. -/
theorem sum_bytes_const (resultList : List Result) (c : Int)
    (h : ∀ r ∈ resultList, r.Bytes = c) :
    (resultList.map (fun r => r.Bytes)).sum = (resultList.length : Int) * c := by
  induction resultList with
  | nil => simp
  | cons r rest ih =>
    rw [List.map_cons, List.sum_cons, h r (List.mem_cons_self _ _),
      ih (fun x hx => h x (List.mem_cons_of_mem _ hx)), List.length_cons]
    push_cast
    ring

/-- C9 (as amended): for every size `S >= 0` whose byte count `S * 2^20` fits in
an `int64`, a `diskWrite(path, S)` in which the open and every `Write` call
succeed returns `Succeeded = true` and `Bytes = S * 2^20`, in `pkg/kioperf` and
in `pkg/ioperf`; over a run of such writes whose total fits in an `int64`,
`DoTest` reports `Bytes = iterations * S * 2^20`. -/
theorem C9_write_bytes (size : Int) (h0 : 0 ≤ size) (hfit : size * 2 ^ 20 < 2 ^ 63) :
    (∀ (env : Sys.OS) (fs : Sys.FileSys) (t : Sys.Timing) (path : String) (fsync : Bool),
      env.openErr path = false → (∀ k, env.writeErr k = none) →
      (diskWrite env fs t path size fsync).1.Succeeded = true ∧
      (diskWrite env fs t path size fsync).1.Bytes = size * 2 ^ 20) ∧
    (∀ (env : Sys.OS) (fs : Sys.FileSys) (t : Sys.Timing) (path : String),
      env.openErr path = false → (∀ k, env.writeErr k = none) →
      (ioperf.diskWrite env fs t path size).1.Succeeded = true ∧
      (ioperf.diskWrite env fs t path size).1.Bytes = size * 2 ^ 20) ∧
    (∀ resultList : List Result,
      (∀ r ∈ resultList, ∃ (env : Sys.OS) (fs : Sys.FileSys) (t : Sys.Timing) (path : String)
        (fsync : Bool) (w : Int), env.openErr path = false ∧ (∀ k, env.writeErr k = none) ∧
        r = { (diskWrite env fs t path size fsync).1 with WorkerId := w }) →
      (resultList.length : Int) * (size * 2 ^ 20) < 2 ^ 63 →
      (summarize resultList).bytes = (resultList.length : Int) * (size * 2 ^ 20)) := by
  obtain ⟨hblocks, hwrap⟩ := blocks_of_size size h0 hfit
  have hk : ∀ (env : Sys.OS) (fs : Sys.FileSys) (t : Sys.Timing) (path : String) (fsync : Bool),
      env.openErr path = false → (∀ k, env.writeErr k = none) →
      (diskWrite env fs t path size fsync).1.Succeeded = true ∧
      (diskWrite env fs t path size fsync).1.Bytes = size * 2 ^ 20 := by
    intro env fs t path fsync hopen hok
    obtain ⟨h1, h2, _⟩ := diskWrite_ok env fs t path size fsync hopen (fun k _ => hok k)
    exact ⟨h1, by rw [h2, hblocks, hwrap]⟩
  refine ⟨hk, ?_, ?_⟩
  · intro env fs t path hopen hok
    obtain ⟨h1, h2⟩ := ioperf.diskWrite_counts env fs t path size hopen hok
    exact ⟨h1, by rw [h2, hblocks, hwrap]⟩
  · intro resultList hall htotal
    have hconst : ∀ r ∈ resultList, r.Bytes = size * 2 ^ 20 := by
      intro r hr
      obtain ⟨env, fs, t, path, fsync, w, hopen, hok, rfl⟩ := hall r hr
      exact (hk env fs t path fsync hopen hok).2
    have hnn : (0 : Int) ≤ (resultList.length : Int) * (size * 2 ^ 20) :=
      Int.mul_nonneg (by omega) (by omega)
    rw [summarize_bytes, sum_bytes_const resultList _ hconst,
      Go.wrapInt64_of_fits _ (by omega) htotal]

/-- C9 at the end-to-end scenario: a write of 1 MiB reports `2^20` bytes, and
four of them `4 * 2^20`. -/
theorem C9_write_bytes_witness :
    (diskWrite ⟨fun _ => false, fun _ => none, fun _ => false⟩ Sys.FileSys.empty
      ⟨0, fun _ => 0, 5⟩ "d/kioperf-file-0.dat" 1 false).1.Succeeded = true ∧
    (diskWrite ⟨fun _ => false, fun _ => none, fun _ => false⟩ Sys.FileSys.empty
      ⟨0, fun _ => 0, 5⟩ "d/kioperf-file-0.dat" 1 false).1.Bytes = 1 * 2 ^ 20 :=
  (C9_write_bytes 1 (by decide) (by decide)).1 ⟨fun _ => false, fun _ => none, fun _ => false⟩
    Sys.FileSys.empty ⟨0, fun _ => 0, 5⟩ "d/kioperf-file-0.dat" false rfl (fun _ => rfl)

/-- C9 as stated fails at `S = 2^53`: `blocksToWrite = S * 1024` wraps to a
negative `int64`, the loop body never runs, and `diskWrite` returns
`Succeeded = true` with `Bytes = 0`, not `2^53 * 2^20`. -/
theorem C9_counterexample :
    (∀ k, (⟨fun _ => false, fun _ => none, fun _ => false⟩ : Sys.OS).writeErr k = none) ∧
    (diskWrite ⟨fun _ => false, fun _ => none, fun _ => false⟩ Sys.FileSys.empty
      ⟨0, fun _ => 0, 5⟩ "d/kioperf-file-0.dat" (2 ^ 53) false).1.Succeeded = true ∧
    (diskWrite ⟨fun _ => false, fun _ => none, fun _ => false⟩ Sys.FileSys.empty
      ⟨0, fun _ => 0, 5⟩ "d/kioperf-file-0.dat" (2 ^ 53) false).1.Bytes = 0 ∧
    (diskWrite ⟨fun _ => false, fun _ => none, fun _ => false⟩ Sys.FileSys.empty
      ⟨0, fun _ => 0, 5⟩ "d/kioperf-file-0.dat" (2 ^ 53) false).1.Bytes ≠ 2 ^ 53 * 2 ^ 20 := by
  refine ⟨fun _ => rfl, by decide, by decide, by decide⟩

end kioperf

/-! ## The local-file backend: reading, and the round trip -/

namespace kioperf

/-- The read loop when no `Read` call fails: it ends on `io.EOF` with
`Succeeded = true`, having counted every byte from the offset to the end of
the file. -/
theorem readLoop_ok (env : Sys.OS) (t : Sys.Timing) (content : List Nat)
    (hok : ∀ k, env.readErr k = false) :
    ∀ (m k off : Nat) (result : Result), content.length - off = m →
      Go.wrapInt64 result.Bytes = result.Bytes →
      (readLoop env t content k off result).Succeeded = true ∧
      (readLoop env t content k off result).Bytes =
        Go.wrapInt64 (result.Bytes + ((content.length - off : Nat) : Int)) := by
  intro m
  induction m using Nat.strong_induction_on with
  | _ m ih =>
    intro k off result hm hb
    rw [readLoop]
    simp only [hok k, Bool.false_eq_true, if_false]
    by_cases hlt : off < content.length
    · simp only [hlt, if_true]
      obtain ⟨h1, h2⟩ := ih (content.length - (off + min 1024 (content.length - off)))
        (by omega) (k + 1) (off + min 1024 (content.length - off))
        { result with
          Bytes := Go.wrapInt64 (result.Bytes + ((min 1024 (content.length - off) : Nat) : Int)),
          FirstBlockArrivalMs :=
            if result.FirstBlockArrivalMs ≤ 0 then millis64 (t.now k)
            else result.FirstBlockArrivalMs }
        rfl (by unfold Go.wrapInt64; exact Int.bmod_bmod)
      refine ⟨h1, ?_⟩
      rw [h2, Go.wrapInt64_add_wrap]
      congr 1
      omega
    · simp only [hlt, if_false]
      have hz : content.length - off = 0 := by omega
      simp [hz, hb]

/-- A `diskRead` of an existing file that meets no failure reports the length
of the file. -/
theorem diskRead_ok (env : Sys.OS) (fs : Sys.FileSys) (t : Sys.Timing) (path : String)
    (content : List Nat) (hfile : fs.file path = some content)
    (hopen : env.openErr path = false) (hok : ∀ k, env.readErr k = false) :
    (diskRead env fs t path).Succeeded = true ∧
    (diskRead env fs t path).Bytes = Go.wrapInt64 (content.length : Int) := by
  obtain ⟨h1, h2⟩ := readLoop_ok env t content hok content.length 0 0
    { Result.zero with
      Operation := "disk-read", Path := path, StartTimeMs := millis64 t.sinceStart }
    rfl (by show Go.wrapInt64 (0 : Int) = 0; decide)
  unfold diskRead
  simp only [hopen, Bool.false_eq_true, if_false, hfile]
  refine ⟨h1, ?_⟩
  rw [h2]
  simp [Result.zero]

/-- What a read after a write reports: the larger of the length the file had
before and the number of bytes written, in 64-bit arithmetic. -/
theorem roundTrip_bytes (envW envR : Sys.OS) (fs : Sys.FileSys) (tW tR : Sys.Timing)
    (path : String) (size : Int) (fsync : Bool)
    (hw : (diskWrite envW fs tW path size fsync).1.Succeeded = true)
    (hopen : envR.openErr path = false) (hok : ∀ k, envR.readErr k = false) :
    (diskRead envR (diskWrite envW fs tW path size fsync).2 tR path).Succeeded = true ∧
    (diskRead envR (diskWrite envW fs tW path size fsync).2 tR path).Bytes =
      Go.wrapInt64 ((max ((fs.file path).getD []).length
        ((Go.wrapInt64 (size * 1024)).toNat * 1024) : Nat) : Int) := by
  obtain ⟨hwo, hwk⟩ := diskWrite_succeeded envW fs tW path size fsync hw
  obtain ⟨_, _, content, hfs, hlen⟩ := diskWrite_ok envW fs tW path size fsync hwo hwk
  have hfile : (diskWrite envW fs tW path size fsync).2.file path = some content := by
    rw [hfs]; simp [Sys.FileSys.store]
  obtain ⟨h1, h2⟩ := diskRead_ok envR _ tR path content hfile hopen hok
  exact ⟨h1, by rw [h2, hlen]⟩

/-- The round trip where the code achieves it: when the file at the path is
absent or holds at most `S * 2^20` bytes, and `S * 2^20` is inside the `int64`
range, a `diskWrite(path, S)` that succeeds followed by a `diskRead(path)`
that meets no I/O failure reports `Succeeded = true` and `Bytes = S * 2^20`. -/
theorem roundTrip_within_written (envW envR : Sys.OS) (fs : Sys.FileSys) (tW tR : Sys.Timing)
    (path : String) (size : Int) (fsync : Bool)
    (h0 : 0 ≤ size) (hfit : size * 2 ^ 20 < 2 ^ 63)
    (hprior : (((fs.file path).getD []).length : Int) ≤ size * 2 ^ 20)
    (hw : (diskWrite envW fs tW path size fsync).1.Succeeded = true)
    (hopen : envR.openErr path = false) (hok : ∀ k, envR.readErr k = false) :
    (diskRead envR (diskWrite envW fs tW path size fsync).2 tR path).Succeeded = true ∧
    (diskRead envR (diskWrite envW fs tW path size fsync).2 tR path).Bytes = size * 2 ^ 20 := by
  obtain ⟨h1, h2⟩ := roundTrip_bytes envW envR fs tW tR path size fsync hw hopen hok
  obtain ⟨hblocks, hwrap⟩ := blocks_of_size size h0 hfit
  refine ⟨h1, ?_⟩
  rw [h2, max_eq_right (by omega), hblocks, hwrap]

/-- C8 on the code, at a file that exists and is longer than the write:
`diskWrite` opens it with `O_WRONLY|O_CREATE` and no `O_TRUNC`, so a write of
1 MiB that succeeds over a file of `2^20 + 1` bytes, followed by a `diskRead`
that meets no failure, reports `2^20 + 1` bytes and not the `1 * 2^20` of the
round trip. -/
theorem C8_longer_file_not_truncated :
    (diskWrite ⟨fun _ => false, fun _ => none, fun _ => false⟩
      (Sys.FileSys.empty.store "d/kioperf-file-0.dat" (List.replicate (2 ^ 20 + 1) 0))
      ⟨0, fun _ => 0, 5⟩ "d/kioperf-file-0.dat" 1 false).1.Succeeded = true ∧
    (diskRead ⟨fun _ => false, fun _ => none, fun _ => false⟩
      (diskWrite ⟨fun _ => false, fun _ => none, fun _ => false⟩
        (Sys.FileSys.empty.store "d/kioperf-file-0.dat" (List.replicate (2 ^ 20 + 1) 0))
        ⟨0, fun _ => 0, 5⟩ "d/kioperf-file-0.dat" 1 false).2
      ⟨9, fun _ => 1, 3⟩ "d/kioperf-file-0.dat").Succeeded = true ∧
    (diskRead ⟨fun _ => false, fun _ => none, fun _ => false⟩
      (diskWrite ⟨fun _ => false, fun _ => none, fun _ => false⟩
        (Sys.FileSys.empty.store "d/kioperf-file-0.dat" (List.replicate (2 ^ 20 + 1) 0))
        ⟨0, fun _ => 0, 5⟩ "d/kioperf-file-0.dat" 1 false).2
      ⟨9, fun _ => 1, 3⟩ "d/kioperf-file-0.dat").Bytes = 2 ^ 20 + 1 ∧
    (diskRead ⟨fun _ => false, fun _ => none, fun _ => false⟩
      (diskWrite ⟨fun _ => false, fun _ => none, fun _ => false⟩
        (Sys.FileSys.empty.store "d/kioperf-file-0.dat" (List.replicate (2 ^ 20 + 1) 0))
        ⟨0, fun _ => 0, 5⟩ "d/kioperf-file-0.dat" 1 false).2
      ⟨9, fun _ => 1, 3⟩ "d/kioperf-file-0.dat").Bytes ≠ 1 * 2 ^ 20 := by
  have hw := (diskWrite_ok ⟨fun _ => false, fun _ => none, fun _ => false⟩
    (Sys.FileSys.empty.store "d/kioperf-file-0.dat" (List.replicate (2 ^ 20 + 1) 0))
    ⟨0, fun _ => 0, 5⟩ "d/kioperf-file-0.dat" 1 false rfl (fun _ _ => rfl)).1
  obtain ⟨h1, h2⟩ := roundTrip_bytes ⟨fun _ => false, fun _ => none, fun _ => false⟩
    ⟨fun _ => false, fun _ => none, fun _ => false⟩
    (Sys.FileSys.empty.store "d/kioperf-file-0.dat" (List.replicate (2 ^ 20 + 1) 0))
    ⟨0, fun _ => 0, 5⟩ ⟨9, fun _ => 1, 3⟩ "d/kioperf-file-0.dat" 1 false hw rfl (fun _ => rfl)
  have hval : Go.wrapInt64 ((max (((Sys.FileSys.empty.store "d/kioperf-file-0.dat"
      (List.replicate (2 ^ 20 + 1) 0)).file "d/kioperf-file-0.dat").getD []).length
      ((Go.wrapInt64 (1 * 1024)).toNat * 1024) : Nat) : Int) = 2 ^ 20 + 1 := by
    have hb : Go.wrapInt64 (1 * 1024) = 1024 := by decide
    rw [hb]
    simp only [Sys.FileSys.store, if_true, Option.getD_some, List.length_replicate]
    norm_num
    decide
  rw [hval] at h2
  exact ⟨hw, h1, h2, by rw [h2]; decide⟩

end kioperf

/-! ## The worker pool -/

namespace kioperf

/-- The entry that `lookup` finds for a worker is the one that `eraseP` removes. -/
theorem lookup_eraseP_perm (busy : List (Nat × String)) (w : Nat) (path : String)
    (h : busy.lookup w = some path) :
    busy.Perm ((w, path) :: busy.eraseP (fun e => e.1 == w)) := by
  induction busy with
  | nil => simp at h
  | cons e rest ih =>
    obtain ⟨a, b⟩ := e
    by_cases hwa : w = a
    · subst hwa
      simp only [List.lookup_cons, beq_self_eq_true] at h
      injection h with h
      subst h
      simp [List.eraseP_cons]
    · have hne : (w == a) = false := by simpa using hwa
      have hne2 : (a == w) = false := by simpa using fun h : a = w => hwa h.symm
      simp only [List.lookup_cons, hne] at h
      simp only [List.eraseP_cons, hne2, Bool.false_eq_true, if_false]
      exact ((ih h).cons (a, b)).trans (List.Perm.swap _ _ _)

/-- What one move does to the pool: the paths stay the same collection, one
move less is left, the length of the result list never passes `Iterations`,
and the accounts of every worker move together with its dequeues. -/
theorem step_effect (common : CommonConfig) (s s1 : Pool) (a : Action)
    (h : s.step common a = some s1) :
    s1.paths.Perm s.paths ∧
    s1.movesLeft + 1 = s.movesLeft ∧
    (∀ w, s1.emittedBy w + s1.heldBy w =
      s.emittedBy w + s.heldBy w + if a = Action.dequeue w then 1 else 0) ∧
    (∀ w, s1.heldBy w ≤ 1 ∨ s1.heldBy w ≤ s.heldBy w) ∧
    ((s.resultList.length : Int) ≤ common.Iterations →
      (s1.resultList.length : Int) ≤ common.Iterations) := by
  cases a with
  | dequeue v =>
    cases htasks : s.tasks with
    | nil => simp [Pool.step, htasks] at h
    | cons path rest =>
      by_cases hc : (v : Int) < common.Threads ∧ s.busy.lookup v = none
      · simp only [Pool.step, htasks, hc, and_self, if_true, Option.some.injEq] at h
        subst h
        have hnot : ∀ e ∈ s.busy, e.1 ≠ v := by
          intro e he hev
          have := List.lookup_eq_none_iff.mp hc.2 e he
          simp [hev] at this
        have hheld : (s.busy.filter (fun e => e.1 = v)).length = 0 := by
          rw [List.length_eq_zero, List.filter_eq_nil_iff]
          intro e he
          simpa using hnot e he
        refine ⟨?_, ?_, ?_, ?_, fun hle => hle⟩
        · simp only [Pool.paths, htasks, List.map_cons]
          exact (List.perm_middle.append_right _)
        · simp only [Pool.movesLeft, htasks, List.length_cons]
          omega
        · intro w
          by_cases hw : v = w
          · subst hw
            simp [Pool.emittedBy, Pool.heldBy, List.filter_cons, hheld]
          · have hne : Action.dequeue v ≠ Action.dequeue w := fun he => hw (by injection he)
            simp [Pool.emittedBy, Pool.heldBy, List.filter_cons, hw, hne]
        · intro w
          by_cases hw : v = w
          · subst hw
            left
            simp [Pool.heldBy, List.filter_cons, hheld]
          · right
            simp [Pool.heldBy, List.filter_cons, hw]
      · simp only [Pool.step, htasks, hc, if_false, reduceCtorEq] at h
  | emit v r =>
    cases hl : s.busy.lookup v with
    | none => simp [Pool.step, hl] at h
    | some path =>
      by_cases hc : r.Path = path ∧ (s.results.length : Int) < common.Iterations
      · simp only [Pool.step, hl, hc, and_self, if_true, Option.some.injEq] at h
        subst h
        have hperm := lookup_eraseP_perm s.busy v path hl
        have hlen := hperm.length_eq
        have hcount : ∀ w, (s.busy.filter (fun e => e.1 = w)).length =
            (if v = w then 1 else 0) +
              ((s.busy.eraseP (fun e => e.1 == v)).filter (fun e => e.1 = w)).length := by
          intro w
          have := (hperm.filter (fun e => decide (e.1 = w))).length_eq
          rw [this]
          by_cases hw : v = w
          · simp [List.filter_cons, hw]; omega
          · simp [List.filter_cons, hw]
        refine ⟨?_, ?_, ?_, ?_, fun hle => hle⟩
        · rw [List.perm_iff_count]
          intro x
          have hx := (hperm.map Prod.snd).count_eq x
          simp only [Pool.paths, List.count_append, List.map_append, List.map_cons, List.map_nil,
            List.count_cons, List.count_nil, hc.1] at hx ⊢
          omega
        · simp only [Pool.movesLeft, List.length_append, List.length_cons, List.length_nil]
          simp only [List.length_cons] at hlen
          omega
        · intro w
          have hcw := hcount w
          by_cases hw : v = w
          · subst hw
            simp [Pool.emittedBy, Pool.heldBy, List.filter_append, List.filter_cons] at hcw ⊢
            omega
          · have hw2 : ¬ ((v : Int) = (w : Int)) := by omega
            simp [Pool.emittedBy, Pool.heldBy, List.filter_append, List.filter_cons, hw, hw2]
              at hcw ⊢
            omega
        · intro w
          right
          have hcw := hcount w
          simp only [Pool.heldBy]
          omega
      · simp only [Pool.step, hl, hc, if_false, reduceCtorEq] at h
  | collect =>
    cases hres : s.results with
    | nil => simp [Pool.step, hres] at h
    | cons r rest =>
      by_cases hc : (s.resultList.length : Int) < common.Iterations
      · simp only [Pool.step, hres, hc, if_true, Option.some.injEq] at h
        subst h
        refine ⟨?_, ?_, ?_, ?_, ?_⟩
        · rw [List.perm_iff_count]
          intro x
          simp only [Pool.paths, hres, List.count_append, List.map_append, List.map_cons,
            List.map_nil, List.count_cons, List.count_nil]
          omega
        · simp only [Pool.movesLeft, hres, List.length_cons]
          omega
        · intro w
          simp only [Pool.emittedBy, Pool.heldBy, hres, List.filter_append, List.filter_cons,
            List.length_append, reduceCtorEq, if_false]
          split_ifs
          · simp; omega
          · simp
        · intro w; right; exact le_refl _
        · intro _
          simp only [List.length_append, List.length_cons, List.length_nil]
          push_cast
          omega
      · simp only [Pool.step, hres, hc, if_false, reduceCtorEq] at h

/-- What a run does to the pool: the effects of its moves, added up. -/
theorem run_effect (common : CommonConfig) :
    ∀ (sched : List Action) (s s1 : Pool), Pool.run common s sched = some s1 →
      s1.paths.Perm s.paths ∧
      s1.movesLeft + sched.length = s.movesLeft ∧
      (∀ w, s1.emittedBy w + s1.heldBy w =
        s.emittedBy w + s.heldBy w + sched.count (Action.dequeue w)) ∧
      ((∀ w, s.heldBy w ≤ 1) → ∀ w, s1.heldBy w ≤ 1) ∧
      ((s.resultList.length : Int) ≤ common.Iterations →
        (s1.resultList.length : Int) ≤ common.Iterations) := by
  intro sched
  induction sched with
  | nil =>
    intro s s1 h
    simp only [Pool.run, Option.some.injEq] at h
    subst h
    simp
  | cons a rest ih =>
    intro s s1 h
    cases hstep : s.step common a with
    | none => simp [Pool.run, hstep] at h
    | some s2 =>
      simp only [Pool.run, hstep] at h
      obtain ⟨a1, a2, a3, a4, a5⟩ := step_effect common s s2 a hstep
      obtain ⟨b1, b2, b3, b4, b5⟩ := ih s2 s1 h
      refine ⟨b1.trans a1, by simp only [List.length_cons]; omega, ?_, ?_, fun hle => b5 (a5 hle)⟩
      · intro w
        rw [b3 w, a3 w, List.count_cons]
        by_cases hw : a = Action.dequeue w
        · simp [hw]; omega
        · have hw2 : ¬ (Action.dequeue w = a) := fun he => hw he.symm
          simp [hw, hw2]
      · intro hheld
        apply b4
        intro w
        rcases a4 w with h1 | h1
        · exact h1
        · exact le_trans h1 (hheld w)

/-- A pool that accounts for `Iterations` paths is either quiet, with all the
results collected and no move possible, or has a possible move. -/
theorem progress (common : CommonConfig) (s : Pool) (ht : 1 ≤ common.Threads)
    (hlen : (s.paths.length : Int) = common.Iterations) :
    (s.quiet = false → ∃ a s1, s.step common a = some s1) ∧
    (s.quiet = true →
      (s.resultList.length : Int) = common.Iterations ∧ ∀ a, s.step common a = none) := by
  obtain ⟨tasks, busy, results, resultList⟩ := s
  simp only [Pool.paths, List.length_append, List.length_map] at hlen
  push_cast at hlen
  constructor
  · intro hq
    cases results with
    | cons r rest =>
      have hc : (resultList.length : Int) < common.Iterations := by
        simp only [List.length_cons] at hlen; push_cast at hlen; omega
      exact ⟨Action.collect, _, by simp only [Pool.step, hc, if_true]; rfl⟩
    | nil =>
      cases busy with
      | cons e rest =>
        obtain ⟨w, path⟩ := e
        have hc : (({ Result.zero with Path := path } : Result).Path = path) ∧
            (([] : List Result).length : Int) < common.Iterations := by
          refine ⟨rfl, ?_⟩
          simp only [List.length_cons, List.length_nil] at hlen ⊢; push_cast at hlen ⊢; omega
        exact ⟨Action.emit w { Result.zero with Path := path }, _, by
          simp only [Pool.step, List.lookup_cons, beq_self_eq_true, hc, and_self, if_true]; rfl⟩
      | nil =>
        cases tasks with
        | cons path rest =>
          have hc : ((0 : Nat) : Int) < common.Threads ∧
              ([] : List (Nat × String)).lookup 0 = none := ⟨by omega, rfl⟩
          exact ⟨Action.dequeue 0, _, by simp only [Pool.step, hc, and_self, if_true]; rfl⟩
        | nil => simp [Pool.quiet] at hq
  · intro hq
    simp only [Pool.quiet, Bool.and_eq_true, List.isEmpty_iff] at hq
    obtain ⟨⟨h1, h2⟩, h3⟩ := hq
    subst h1 h2 h3
    refine ⟨by simpa using hlen, ?_⟩
    intro a
    cases a <;> simp [Pool.step]

/-- C3: for a valid configuration (`Iterations`, `Files`, `Threads` all at
least 1), after any sequence of moves of the workers and of `DoTest` from the
start of the run: every worker has sent exactly one result per path it
dequeued, apart from the one path it may still hold; the paths waiting, held
and turned into results are a rearrangement of the generated tasks, so no
task is lost or handled twice; at most `3 * Iterations` moves have been made;
and either a further move is possible or `DoTest` has collected exactly
`Iterations` results, one per task, whatever the backend returned. -/
theorem C3_one_result_per_task (common : CommonConfig)
    (hi : 1 ≤ common.Iterations) (hf : 1 ≤ common.Files) (ht : 1 ≤ common.Threads) :
    ∃ tasks, taskLoop common = some tasks ∧
      ∀ (sched : List Action) (s : Pool),
        Pool.run common (Pool.start tasks) sched = some s →
        (∀ w, sched.count (Action.dequeue w) = s.emittedBy w + s.heldBy w) ∧
        (∀ w, s.heldBy w ≤ 1) ∧
        s.paths.Perm tasks ∧
        (sched.length : Int) ≤ 3 * common.Iterations ∧
        (s.resultList.length : Int) ≤ common.Iterations ∧
        (s.quiet = false → ∃ a s1, s.step common a = some s1) ∧
        (s.quiet = true →
          (s.resultList.length : Int) = common.Iterations ∧
          (s.resultList.map (fun r => r.Path)).Perm tasks ∧
          ∀ a, s.step common a = none) := by
  refine ⟨_, taskLoop_eq common hf, ?_⟩
  intro sched s hrun
  generalize htasks : (List.range common.Iterations.toNat).map
    (fun k => taskName common.Path ((k % common.Files.toNat : Nat) : Int)) = tasks at hrun
  have htl : (tasks.length : Int) = common.Iterations := by
    rw [← htasks]; simp; omega
  obtain ⟨h1, h2, h3, h4, h5⟩ := run_effect common sched (Pool.start tasks) s hrun
  have hstart : (Pool.start tasks).paths = tasks := by simp [Pool.start, Pool.paths]
  rw [hstart] at h1
  have hplen : (s.paths.length : Int) = common.Iterations := by rw [h1.length_eq]; exact htl
  obtain ⟨hp1, hp2⟩ := progress common s ht hplen
  refine ⟨?_, ?_, h1, ?_, ?_, hp1, ?_⟩
  · intro w
    have := h3 w
    simp only [Pool.start, Pool.emittedBy, Pool.heldBy, List.append_nil, List.filter_nil,
      List.length_nil] at this
    simp only [Pool.emittedBy, Pool.heldBy]
    omega
  · exact h4 (fun w => by simp [Pool.start, Pool.heldBy])
  · have : (Pool.start tasks).movesLeft = 3 * tasks.length := by
      simp [Pool.start, Pool.movesLeft]
    rw [this] at h2
    omega
  · exact h5 (by simp only [Pool.start, List.length_nil]; omega)
  · intro hq
    obtain ⟨hq1, hq2⟩ := hp2 hq
    refine ⟨hq1, ?_, hq2⟩
    simp only [Pool.quiet, Bool.and_eq_true, List.isEmpty_iff] at hq
    obtain ⟨⟨e1, e2⟩, e3⟩ := hq
    simpa [Pool.paths, e1, e2, e3] using h1

/-- C3 at a run of two iterations by two workers: the schedule in which
worker 1 takes the first task and worker 0 the second ends with both results
collected, the failed one included. -/
theorem C3_one_result_per_task_witness :
    ∃ s, Pool.run ⟨"disk", "read", 2, 2, 1, "d", 2, false, false, false⟩
        (Pool.start ["d/kioperf-file-0.dat", "d/kioperf-file-1.dat"])
        [Action.dequeue 1, Action.dequeue 0,
          Action.emit 0 ⟨"disk-read", 0, "d/kioperf-file-1.dat", false, 0, 1, 0, 0⟩,
          Action.emit 1 ⟨"disk-read", 0, "d/kioperf-file-0.dat", true, 2048, 1, 5, 2⟩,
          Action.collect, Action.collect] = some s ∧
      s.quiet = true ∧ (s.resultList.length : Int) = 2 := by
  obtain ⟨tasks, hgen, h⟩ := C3_one_result_per_task
    ⟨"disk", "read", 2, 2, 1, "d", 2, false, false, false⟩ (by decide) (by decide) (by decide)
  have hval : taskLoop ⟨"disk", "read", 2, 2, 1, "d", 2, false, false, false⟩ =
      some ["d/kioperf-file-0.dat", "d/kioperf-file-1.dat"] := by decide
  rw [hval] at hgen
  injection hgen with hgen
  subst hgen
  have hrun : Pool.run ⟨"disk", "read", 2, 2, 1, "d", 2, false, false, false⟩
      (Pool.start ["d/kioperf-file-0.dat", "d/kioperf-file-1.dat"])
      [Action.dequeue 1, Action.dequeue 0,
        Action.emit 0 ⟨"disk-read", 0, "d/kioperf-file-1.dat", false, 0, 1, 0, 0⟩,
        Action.emit 1 ⟨"disk-read", 0, "d/kioperf-file-0.dat", true, 2048, 1, 5, 2⟩,
        Action.collect, Action.collect] =
      some ⟨[], [], [], [⟨"disk-read", 0, "d/kioperf-file-1.dat", false, 0, 1, 0, 0⟩,
        ⟨"disk-read", 1, "d/kioperf-file-0.dat", true, 2048, 1, 5, 2⟩]⟩ := by
    simp [Pool.run, Pool.step, Pool.start]
  exact ⟨_, hrun, rfl, ((h _ _ hrun).2.2.2.2.2.2 rfl).1⟩

end kioperf

/-! ## Reads whose open fails -/

namespace kioperf

/-- A `diskRead` whose open fails returns at once: the zero result with the
operation, the path and the start time filled in. -/
theorem diskRead_open_fails (env : Sys.OS) (fs : Sys.FileSys) (t : Sys.Timing) (path : String)
    (h : env.openErr path = true ∨ fs.file path = none) :
    diskRead env fs t path =
      { Result.zero with
        Operation := "disk-read", Path := path, StartTimeMs := millis64 t.sinceStart } := by
  unfold diskRead
  rcases h with h | h
  · simp [h]
  · cases ho : env.openErr path <;> simp [h]

/-- A property of the results that the backend returns is a property of the
results in the channel and in the result list, when it does not depend on
the worker id. -/
theorem run_results (common : CommonConfig) (P : Result → Prop) :
    ∀ (sched : List Action) (s s1 : Pool), Pool.run common s sched = some s1 →
      (∀ w r, Action.emit w r ∈ sched → P { r with WorkerId := (w : Int) }) →
      (∀ r ∈ s.results ++ s.resultList, P r) →
      ∀ r ∈ s1.results ++ s1.resultList, P r := by
  intro sched
  induction sched with
  | nil =>
    intro s s1 h _ hs
    simp only [Pool.run, Option.some.injEq] at h
    subst h
    exact hs
  | cons a rest ih =>
    intro s s1 h hemit hs
    cases hstep : s.step common a with
    | none => simp [Pool.run, hstep] at h
    | some s2 =>
      simp only [Pool.run, hstep] at h
      refine ih s2 s1 h (fun w r hm => hemit w r (List.mem_cons_of_mem _ hm)) ?_
      cases a with
      | dequeue v =>
        cases htasks : s.tasks with
        | nil => simp [Pool.step, htasks] at hstep
        | cons path tl =>
          by_cases hc : (v : Int) < common.Threads ∧ s.busy.lookup v = none
          · simp only [Pool.step, htasks, hc, and_self, if_true, Option.some.injEq] at hstep
            subst hstep
            exact hs
          · simp only [Pool.step, htasks, hc, if_false, reduceCtorEq] at hstep
      | emit v r0 =>
        cases hl : s.busy.lookup v with
        | none => simp [Pool.step, hl] at hstep
        | some path =>
          by_cases hc : r0.Path = path ∧ (s.results.length : Int) < common.Iterations
          · simp only [Pool.step, hl, hc, and_self, if_true, Option.some.injEq] at hstep
            subst hstep
            intro r hr
            simp only [List.mem_append, List.mem_singleton] at hr
            rcases hr with (hr | hr) | hr
            · exact hs r (List.mem_append_left _ hr)
            · have hp := hemit v r0 (List.mem_cons_self _ _)
              rw [hc.1] at hp
              rw [hr]; exact hp
            · exact hs r (List.mem_append_right _ hr)
          · simp only [Pool.step, hl, hc, if_false, reduceCtorEq] at hstep
      | collect =>
        cases hres : s.results with
        | nil => simp [Pool.step, hres] at hstep
        | cons r0 tl =>
          by_cases hc : (s.resultList.length : Int) < common.Iterations
          · simp only [Pool.step, hres, hc, if_true, Option.some.injEq] at hstep
            subst hstep
            intro r hr
            apply hs r
            simp only [hres, List.mem_append, List.mem_cons, List.mem_singleton] at hr ⊢
            tauto
          · simp only [Pool.step, hres, hc, if_false, reduceCtorEq] at hstep

/-- The scan over outcomes that all failed with no byte transferred. -/
theorem summarize_all_failed (resultList : List Result)
    (h : ∀ r ∈ resultList, r.Succeeded = false ∧ r.Bytes = 0) :
    (summarize resultList).failed = (resultList.length : Int) ∧
    (summarize resultList).succeeded = 0 ∧
    (summarize resultList).bytes = 0 := by
  obtain ⟨_, h2, h3⟩ := foldl_add_counts resultList ⟨0, 0, 0, 0, maxFloat64, 0, 0⟩
  have hall : resultList.countP (fun r => !r.Succeeded) = resultList.length := by
    rw [List.countP_eq_length]
    intro r hr
    simp [(h r hr).1]
  have hnone : resultList.countP (fun r => r.Succeeded) = 0 := by
    rw [List.countP_eq_zero]
    intro r hr
    simp [(h r hr).1]
  refine ⟨?_, ?_, ?_⟩
  · unfold summarize
    rw [h3, hall]
    simp
  · unfold summarize
    rw [h2, hnone]
    simp
  · rw [summarize_bytes, sum_bytes_const resultList 0 (fun r hr => (h r hr).2)]
    simp [Go.wrapInt64]

/-- Only workers of the pool hold paths: a worker id in `busy` is below
`Threads`. -/
theorem run_busy_bound (common : CommonConfig) :
    ∀ (sched : List Action) (s s1 : Pool), Pool.run common s sched = some s1 →
      (∀ e ∈ s.busy, (e.1 : Int) < common.Threads) →
      ∀ e ∈ s1.busy, (e.1 : Int) < common.Threads := by
  intro sched
  induction sched with
  | nil =>
    intro s s1 h hs
    simp only [Pool.run, Option.some.injEq] at h
    subst h
    exact hs
  | cons a rest ih =>
    intro s s1 h hs
    cases hstep : s.step common a with
    | none => simp [Pool.run, hstep] at h
    | some s2 =>
      simp only [Pool.run, hstep] at h
      refine ih s2 s1 h ?_
      cases a with
      | dequeue v =>
        cases htasks : s.tasks with
        | nil => simp [Pool.step, htasks] at hstep
        | cons path tl =>
          by_cases hc : (v : Int) < common.Threads ∧ s.busy.lookup v = none
          · simp only [Pool.step, htasks, hc, and_self, if_true, Option.some.injEq] at hstep
            subst hstep
            intro e he
            rcases List.mem_cons.mp he with rfl | he
            · exact hc.1
            · exact hs e he
          · simp only [Pool.step, htasks, hc, if_false, reduceCtorEq] at hstep
      | emit v r0 =>
        cases hl : s.busy.lookup v with
        | none => simp [Pool.step, hl] at hstep
        | some path =>
          by_cases hc : r0.Path = path ∧ (s.results.length : Int) < common.Iterations
          · simp only [Pool.step, hl, hc, and_self, if_true, Option.some.injEq] at hstep
            subst hstep
            exact fun e he => hs e (List.mem_of_mem_eraseP he)
          · simp only [Pool.step, hl, hc, if_false, reduceCtorEq] at hstep
      | collect =>
        cases hres : s.results with
        | nil => simp [Pool.step, hres] at hstep
        | cons r0 tl =>
          by_cases hc : (s.resultList.length : Int) < common.Iterations
          · simp only [Pool.step, hres, hc, if_true, Option.some.injEq] at hstep
            subst hstep
            exact hs
          · simp only [Pool.step, hres, hc, if_false, reduceCtorEq] at hstep

/-- A worker that holds a path can always send the result of its backend
call, and is then free to dequeue the next task. -/
theorem emit_then_dequeue (common : CommonConfig) (s : Pool) (w : Nat) (path : String)
    (r : Result) (hr : r.Path = path)
    (hlen : (s.paths.length : Int) = common.Iterations)
    (hheld : s.heldBy w ≤ 1) (hbound : ∀ e ∈ s.busy, (e.1 : Int) < common.Threads)
    (hl : s.busy.lookup w = some path) :
    ∃ s1, s.step common (Action.emit w r) = some s1 ∧
      s1.emittedBy w = s.emittedBy w + 1 ∧ s1.heldBy w = 0 ∧
      (s1.tasks ≠ [] → ∃ s2, s1.step common (Action.dequeue w) = some s2) := by
  have hperm := lookup_eraseP_perm s.busy w path hl
  have hroom : (s.results.length : Int) < common.Iterations := by
    have h1 := hperm.length_eq
    simp only [Pool.paths, List.length_append, List.length_map, List.length_cons] at hlen h1
    push_cast at hlen
    omega
  have hstep : s.step common (Action.emit w r) = some
      { s with
        busy := s.busy.eraseP (fun e => e.1 == w),
        results := s.results ++ [{ r with WorkerId := (w : Int) }] } := by
    simp only [Pool.step, hl, hr, hroom, and_self, if_true]
  obtain ⟨_, _, h3, _, _⟩ := step_effect common s _ (Action.emit w r) hstep
  have hcnt := (hperm.filter (fun e => decide (e.1 = w))).length_eq
  simp only [List.filter_cons, decide_True, if_true, List.length_cons] at hcnt
  have hzero : ({ s with
        busy := s.busy.eraseP (fun e => e.1 == w),
        results := s.results ++ [{ r with WorkerId := (w : Int) }] } : Pool).heldBy w = 0 := by
    simp only [Pool.heldBy] at hheld ⊢
    omega
  have hsum := h3 w
  rw [hzero] at hsum
  have hone : s.heldBy w = 1 := by
    simp only [Pool.heldBy] at hheld ⊢
    omega
  refine ⟨_, hstep, by simpa [hone] using hsum, hzero, ?_⟩
  intro hne
  have hw : (w : Int) < common.Threads := hbound (w, path) (hperm.symm.subset (List.mem_cons_self _ _))
  have hfree : (s.busy.eraseP (fun e => e.1 == w)).lookup w = none := by
    rw [List.lookup_eq_none_iff]
    intro e he
    have hfil : (s.busy.eraseP (fun e => e.1 == w)).filter (fun e => decide (e.1 = w)) = [] := by
      have := hzero
      simp only [Pool.heldBy] at this
      exact List.length_eq_zero.mp this
    have hnot := (List.filter_eq_nil_iff.mp hfil) e he
    have hne : e.1 ≠ w := by simpa using hnot
    exact bne_iff_ne.mpr (fun h => hne h.symm)
  cases htasks : s.tasks with
  | nil => exact absurd htasks hne
  | cons p rest =>
    exact ⟨_, by simp only [Pool.step, htasks, hw, hfree, and_self, if_true]; rfl⟩

/-- C10: a `diskRead` whose open fails (the file does not exist, or the
operating system refuses) returns `Succeeded = false` and `Bytes = 0` for its
path.  In a run of a valid configuration in which every backend call is such
a read: a worker that holds a path can send that outcome and is then free to
dequeue the next task; the run makes at most `3 * Iterations` moves, and some
move is possible until the pool is quiet; and once it is quiet the scan of `DoTest` reports `Files = Failed = Iterations`,
`Succeeded = 0` and `Bytes = 0`. -/
theorem C10_failed_reads (common : CommonConfig)
    (hi : 1 ≤ common.Iterations) (hf : 1 ≤ common.Files) (ht : 1 ≤ common.Threads) :
    (∀ (env : Sys.OS) (fs : Sys.FileSys) (t : Sys.Timing) (path : String),
      (env.openErr path = true ∨ fs.file path = none) →
      (diskRead env fs t path).Succeeded = false ∧ (diskRead env fs t path).Bytes = 0 ∧
      (diskRead env fs t path).Path = path) ∧
    ∃ tasks, taskLoop common = some tasks ∧
      ∀ (sched : List Action) (s : Pool),
        Pool.run common (Pool.start tasks) sched = some s →
        (∀ w r, Action.emit w r ∈ sched →
          ∃ (env : Sys.OS) (fs : Sys.FileSys) (t : Sys.Timing),
            (env.openErr r.Path = true ∨ fs.file r.Path = none) ∧
            r = diskRead env fs t r.Path) →
        (∀ (w : Nat) (path : String) (env : Sys.OS) (fs : Sys.FileSys) (t : Sys.Timing),
          s.busy.lookup w = some path →
          (env.openErr path = true ∨ fs.file path = none) →
          ∃ s1, s.step common (Action.emit w (diskRead env fs t path)) = some s1 ∧
            s1.emittedBy w = s.emittedBy w + 1 ∧ s1.heldBy w = 0 ∧
            (s1.tasks ≠ [] → ∃ s2, s1.step common (Action.dequeue w) = some s2)) ∧
        (sched.length : Int) ≤ 3 * common.Iterations ∧
        (s.quiet = false → ∃ a s1, s.step common a = some s1) ∧
        (s.quiet = true →
          (summarize s.resultList).files = common.Iterations ∧
          (summarize s.resultList).failed = common.Iterations ∧
          (summarize s.resultList).succeeded = 0 ∧
          (summarize s.resultList).bytes = 0) := by
  have hread : ∀ (env : Sys.OS) (fs : Sys.FileSys) (t : Sys.Timing) (path : String),
      (env.openErr path = true ∨ fs.file path = none) →
      (diskRead env fs t path).Succeeded = false ∧ (diskRead env fs t path).Bytes = 0 ∧
      (diskRead env fs t path).Path = path := by
    intro env fs t path h
    rw [diskRead_open_fails env fs t path h]
    exact ⟨rfl, rfl, rfl⟩
  refine ⟨hread, _, taskLoop_eq common hf, ?_⟩
  intro sched s hrun hemit
  generalize htasks : (List.range common.Iterations.toNat).map
    (fun k => taskName common.Path ((k % common.Files.toNat : Nat) : Int)) = tasks at hrun
  have htl : (tasks.length : Int) = common.Iterations := by
    rw [← htasks]; simp; omega
  obtain ⟨h1, h2, _, h4, _⟩ := run_effect common sched (Pool.start tasks) s hrun
  have hmoves : (Pool.start tasks).movesLeft = 3 * tasks.length := by
    simp [Pool.start, Pool.movesLeft]
  rw [hmoves] at h2
  have hstart : (Pool.start tasks).paths = tasks := by simp [Pool.start, Pool.paths]
  rw [hstart] at h1
  have hplen : (s.paths.length : Int) = common.Iterations := by rw [h1.length_eq]; exact htl
  have hheld : ∀ w, s.heldBy w ≤ 1 := h4 (fun w => by simp [Pool.start, Pool.heldBy])
  have hbound := run_busy_bound common sched (Pool.start tasks) s hrun
    (by simp [Pool.start])
  obtain ⟨hp1, hp2⟩ := progress common s ht hplen
  refine ⟨?_, by omega, hp1, ?_⟩
  · intro w path env fs t hl hfail
    exact emit_then_dequeue common s w path _ (hread env fs t path hfail).2.2 hplen
      (hheld w) hbound hl
  · intro hq
    obtain ⟨hq1, _⟩ := hp2 hq
    have hall := run_results common (fun r => r.Succeeded = false ∧ r.Bytes = 0) sched
      (Pool.start tasks) s hrun
      (by
        intro w r hm
        obtain ⟨env, fs, t, hfail, hr⟩ := hemit w r hm
        have := hread env fs t r.Path hfail
        rw [← hr] at this
        exact ⟨this.1, this.2.1⟩)
      (by simp [Pool.start])
    obtain ⟨hs1, hs2, hs3⟩ := summarize_all_failed s.resultList
      (fun r hr => hall r (List.mem_append_right _ hr))
    refine ⟨?_, by rw [hs1, hq1], hs2, hs3⟩
    exact (summarize_files s.resultList).trans hq1

/-- C10 at a run of two reads of a file that does not exist, by one worker. -/
theorem C10_failed_reads_witness :
    ∃ s, Pool.run ⟨"disk", "read", 2, 1, 1, "d", 1, false, false, false⟩
        (Pool.start ["d/kioperf-file-0.dat", "d/kioperf-file-0.dat"])
        [Action.dequeue 0,
          Action.emit 0 (diskRead ⟨fun _ => false, fun _ => none, fun _ => false⟩
            Sys.FileSys.empty ⟨4, fun _ => 0, 9⟩ "d/kioperf-file-0.dat"),
          Action.collect, Action.dequeue 0,
          Action.emit 0 (diskRead ⟨fun _ => false, fun _ => none, fun _ => false⟩
            Sys.FileSys.empty ⟨7, fun _ => 0, 9⟩ "d/kioperf-file-0.dat"),
          Action.collect] = some s ∧
      s.quiet = true ∧
      (summarize s.resultList).failed = 2 ∧ (summarize s.resultList).bytes = 0 := by
  obtain ⟨_, tasks, hgen, h⟩ := C10_failed_reads
    ⟨"disk", "read", 2, 1, 1, "d", 1, false, false, false⟩ (by decide) (by decide) (by decide)
  have hval : taskLoop ⟨"disk", "read", 2, 1, 1, "d", 1, false, false, false⟩ =
      some ["d/kioperf-file-0.dat", "d/kioperf-file-0.dat"] := by decide
  rw [hval] at hgen
  injection hgen with hgen
  subst hgen
  have hrun : Pool.run ⟨"disk", "read", 2, 1, 1, "d", 1, false, false, false⟩
      (Pool.start ["d/kioperf-file-0.dat", "d/kioperf-file-0.dat"])
      [Action.dequeue 0,
        Action.emit 0 (diskRead ⟨fun _ => false, fun _ => none, fun _ => false⟩
          Sys.FileSys.empty ⟨4, fun _ => 0, 9⟩ "d/kioperf-file-0.dat"),
        Action.collect, Action.dequeue 0,
        Action.emit 0 (diskRead ⟨fun _ => false, fun _ => none, fun _ => false⟩
          Sys.FileSys.empty ⟨7, fun _ => 0, 9⟩ "d/kioperf-file-0.dat"),
        Action.collect] =
      some ⟨[], [], [], [{ diskRead ⟨fun _ => false, fun _ => none, fun _ => false⟩
          Sys.FileSys.empty ⟨4, fun _ => 0, 9⟩ "d/kioperf-file-0.dat" with WorkerId := 0 },
        { diskRead ⟨fun _ => false, fun _ => none, fun _ => false⟩
          Sys.FileSys.empty ⟨7, fun _ => 0, 9⟩ "d/kioperf-file-0.dat" with WorkerId := 0 }]⟩ := by
    simp [Pool.run, Pool.step, Pool.start, diskRead, Sys.FileSys.empty, Result.zero]
  have hemit : ∀ w r, Action.emit w r ∈ [Action.dequeue 0,
        Action.emit 0 (diskRead ⟨fun _ => false, fun _ => none, fun _ => false⟩
          Sys.FileSys.empty ⟨4, fun _ => 0, 9⟩ "d/kioperf-file-0.dat"),
        Action.collect, Action.dequeue 0,
        Action.emit 0 (diskRead ⟨fun _ => false, fun _ => none, fun _ => false⟩
          Sys.FileSys.empty ⟨7, fun _ => 0, 9⟩ "d/kioperf-file-0.dat"),
        Action.collect] →
      ∃ (env : Sys.OS) (fs : Sys.FileSys) (t : Sys.Timing),
        (env.openErr r.Path = true ∨ fs.file r.Path = none) ∧ r = diskRead env fs t r.Path := by
    intro w r hm
    simp only [List.mem_cons, List.mem_singleton, reduceCtorEq, false_or, or_false,
      Action.emit.injEq, List.not_mem_nil] at hm
    rcases hm with ⟨_, rfl⟩ | ⟨_, rfl⟩
    · exact ⟨_, Sys.FileSys.empty, ⟨4, fun _ => 0, 9⟩, Or.inr rfl, rfl⟩
    · exact ⟨_, Sys.FileSys.empty, ⟨7, fun _ => 0, 9⟩, Or.inr rfl, rfl⟩
  have hfin := (h _ _ hrun hemit).2.2.2 rfl
  exact ⟨_, hrun, rfl, hfin.2.1, hfin.2.2.2⟩

end kioperf

/-! ## Initialisation of an S3 test -/

namespace kioperf

/-- `S3Config.Init` returns exactly when the URL parses into the scheme `s3`,
a host and a path, and then stores the host and the path. -/
theorem S3Config.Init_eq_some (parse : String → Option Go.URL) (config config1 : S3Config) :
    config.Init parse = some config1 ↔
      ∃ u, parse config.S3Url = some u ∧ u.Scheme = "s3" ∧ u.Host ≠ "" ∧ u.Path ≠ "" ∧
        config1 = { config with
          S3Bucket := u.Host, Common := { config.Common with Path := u.Path } } := by
  unfold S3Config.Init
  cases hp : parse config.S3Url with
  | none => simp
  | some u =>
    by_cases hbad : u.Scheme ≠ "s3" ∨ u.Host = "" ∨ u.Path = ""
    · simp only [hbad, if_true, reduceCtorEq, Option.some.injEq, false_iff, not_exists, not_and]
      intro v hv h1 h2 h3
      subst hv
      rcases hbad with h | h | h
      · exact absurd h1 h
      · exact absurd h h2
      · exact absurd h h3
    · simp only [hbad, if_false, Option.some.injEq]
      have hgood : u.Scheme = "s3" ∧ u.Host ≠ "" ∧ u.Path ≠ "" := by
        refine ⟨?_, ?_, ?_⟩
        · by_contra h; exact hbad (Or.inl h)
        · intro h; exact hbad (Or.inr (Or.inl h))
        · intro h; exact hbad (Or.inr (Or.inr h))
      constructor
      · intro h
        exact ⟨u, rfl, hgood.1, hgood.2.1, hgood.2.2, h.symm⟩
      · rintro ⟨v, hv, _, _, _, h⟩
        subst hv
        exact h.symm

/-- C11: whatever `url.Parse` returns for the S3 URL, `S3Config.Init` panics if
and only if the URL does not parse, its scheme is not `s3`, its host is empty
or its path is empty, and then `DoTest` starts no worker.  Otherwise `Init`
sets `S3Bucket` to the host and `Common.Path` to the path of the URL and
leaves every other field as it was, and the task loop that follows builds
its tasks from that path. -/
theorem C11_s3_init (parse : String → Option Go.URL) (config : S3Config) :
    (config.Init parse = none ↔
      (parse config.S3Url = none ∨
        ∃ u, parse config.S3Url = some u ∧ (u.Scheme ≠ "s3" ∨ u.Host = "" ∨ u.Path = ""))) ∧
    (config.Init parse = none → config.start parse = none) ∧
    (∀ config1, config.Init parse = some config1 →
      ∃ u, parse config.S3Url = some u ∧
        config1.S3Bucket = u.Host ∧ config1.Common.Path = u.Path ∧
        config1.S3Url = config.S3Url ∧
        config1.Common = { config.Common with Path := u.Path } ∧
        (1 ≤ config.Common.Files →
          ∃ tasks, taskLoop config1.Common = some tasks ∧
            tasks.length = config.Common.Iterations.toNat ∧
            (∀ i : Nat, (i : Int) < config.Common.Iterations →
              tasks[i]? = some (u.Path ++ "/kioperf-file-" ++
                Nat.repr (i % config.Common.Files.toNat) ++ ".dat")) ∧
            (0 ≤ config.Common.Iterations → config.Common.DryRun = false →
              config.start parse = some (Pool.start tasks)))) := by
  refine ⟨?_, ?_, ?_⟩
  · unfold S3Config.Init
    cases hp : parse config.S3Url with
    | none => simp
    | some u =>
      by_cases hbad : u.Scheme ≠ "s3" ∨ u.Host = "" ∨ u.Path = ""
      · simp only [hbad, if_true, reduceCtorEq, false_or, true_iff]
        exact ⟨u, rfl, hbad⟩
      · simp only [hbad, if_false, reduceCtorEq, false_or, false_iff, not_exists, not_and]
        intro v hv
        injection hv with hv
        subst hv
        exact hbad
  · intro h
    simp [S3Config.start, h]
  · intro config1 hinit
    obtain ⟨u, hu, _, _, _, hc⟩ := (S3Config.Init_eq_some parse config config1).mp hinit
    subst hc
    refine ⟨u, hu, rfl, rfl, rfl, rfl, ?_⟩
    intro hf
    have hloop := taskLoop_eq { config.Common with Path := u.Path } hf
    refine ⟨_, hloop, by simp, ?_, ?_⟩
    · intro i hi
      have hlt : i < config.Common.Iterations.toNat := by omega
      simp [List.getElem?_map, List.getElem?_range hlt, taskName, Go.fmtD]
    · intro hn hdry
      have hgen := generateTasks_eq_taskLoop { config.Common with Path := u.Path } hn hdry
      simp only [S3Config.start, hinit, hgen, hloop, Option.map_some']

/-- C11 at the default URL of the `s3` command, `s3://bucket/kioperf-data/`,
for a parser that splits it as `url.Parse` does. -/
theorem C11_s3_init_witness :
    ∃ tasks, taskLoop ⟨"s3", "read", 2, 1, 1, "/kioperf-data/", 1, false, false, false⟩
        = some tasks ∧
      (∀ i : Nat, (i : Int) < 2 →
        tasks[i]? = some ("/kioperf-data/" ++ "/kioperf-file-" ++
          Nat.repr (i % (1 : Int).toNat) ++ ".dat")) ∧
      S3Config.start
        (fun s => if s = "s3://bucket/kioperf-data/" then some ⟨"s3", "bucket", "/kioperf-data/"⟩
          else none)
        ⟨⟨"s3", "read", 2, 1, 1, "./kioperf-data", 1, false, false, false⟩,
          "s3://bucket/kioperf-data/", ""⟩ = some (Pool.start tasks) := by
  obtain ⟨u, hu, _, _, _, _, h⟩ := (C11_s3_init
    (fun s => if s = "s3://bucket/kioperf-data/" then some ⟨"s3", "bucket", "/kioperf-data/"⟩
      else none)
    ⟨⟨"s3", "read", 2, 1, 1, "./kioperf-data", 1, false, false, false⟩,
      "s3://bucket/kioperf-data/", ""⟩).2.2
    ⟨⟨"s3", "read", 2, 1, 1, "/kioperf-data/", 1, false, false, false⟩,
      "s3://bucket/kioperf-data/", "bucket"⟩ (by decide)
  have hu2 : u = ⟨"s3", "bucket", "/kioperf-data/"⟩ := by
    simp only [if_true, Option.some.injEq] at hu
    exact hu.symm
  subst hu2
  obtain ⟨tasks, h1, _, h3, h4⟩ := h (by decide)
  exact ⟨tasks, h1, h3, h4 (by decide) rfl⟩

end kioperf

/-! ## The direct-I/O flag of a disk test -/

namespace kioperf

/-- The write loop issues `Write` calls only. -/
theorem writeCalls_no_open (env : Sys.OS) (data : List Nat) :
    ∀ (n k : Nat) (name : String) (flag : List Sys.OpenFlag) (perm : Nat),
      Sys.FileCall.openFile name flag perm ∉ (writeCalls env data n k).2 := by
  intro n
  induction n with
  | zero => intro k name flag perm; simp [writeCalls]
  | succ n ih =>
    intro k name flag perm
    cases hk : env.writeErr k with
    | some w => simp [writeCalls, hk]
    | none =>
      have h := ih (k + 1) name flag perm
      simp only [writeCalls, hk, List.mem_cons, reduceCtorEq, false_or]
      exact h

/-- The read loop issues `Read` calls only. -/
theorem readCalls_no_open (env : Sys.OS) (content : List Nat) :
    ∀ (m k off : Nat) (name : String) (flag : List Sys.OpenFlag) (perm : Nat),
      content.length - off = m →
      Sys.FileCall.openFile name flag perm ∉ readCalls env content k off := by
  intro m
  induction m using Nat.strong_induction_on with
  | _ m ih =>
    intro k off name flag perm hm
    rw [readCalls]
    simp only [List.mem_cons, reduceCtorEq, false_or]
    by_cases herr : env.readErr k = true
    · simp [herr]
    · by_cases hlt : off < content.length
      · simp only [herr, Bool.false_eq_true, if_false, hlt, if_true]
        exact ih (content.length - (off + min 1024 (content.length - off))) (by omega)
          (k + 1) _ name flag perm rfl
      · simp [herr, hlt]

/-- C12 on the code: `DiskConfig.Init` changes nothing, one turn of the worker
returns the same result, leaves the same file system and issues the same
calls whether `Direct` is true or false, and no open call of the worker asks
for direct I/O: the flag `Direct` is never read after it is printed. -/
theorem C12_direct_ignored (config : DiskConfig) (id : Int) (env : Sys.OS)
    (fs : Sys.FileSys) (t : Sys.Timing) (path : String) :
    DiskConfig.Init config = config ∧
    DiskConfig.Worker { config with Direct := true } id env fs t path =
      DiskConfig.Worker { config with Direct := false } id env fs t path ∧
    DiskConfig.WorkerCalls { config with Direct := true } env fs path =
      DiskConfig.WorkerCalls { config with Direct := false } env fs path ∧
    ∀ (name : String) (flag : List Sys.OpenFlag) (perm : Nat),
      Sys.FileCall.openFile name flag perm ∈
        DiskConfig.WorkerCalls { config with Direct := true } env fs path →
      Sys.OpenFlag.O_DIRECT ∉ flag := by
  refine ⟨rfl, rfl, rfl, ?_⟩
  intro name flag perm hmem
  unfold DiskConfig.WorkerCalls at hmem
  by_cases hop : config.Common.Operation = "write"
  · simp only [hop, if_true, diskWriteCalls, List.mem_cons, Sys.FileCall.openFile.injEq] at hmem
    rcases hmem with ⟨_, hflag, _⟩ | hmem
    · rw [hflag]; decide
    · exfalso
      have hno := writeCalls_no_open env writeBlock
        (Go.wrapInt64 (config.Common.FileSizeMiB * 1024)).toNat 0 name flag perm
      by_cases hopen : env.openErr path = true
      · simp [hopen] at hmem
      · simp only [hopen, Bool.false_eq_true, if_false] at hmem
        generalize writeCalls env writeBlock
          (Go.wrapInt64 (config.Common.FileSizeMiB * 1024)).toNat 0 = res at hmem hno
        obtain ⟨completed, calls⟩ := res
        cases completed <;> cases hf : config.Fsync <;> simp [hf] at hmem <;> exact hno hmem
  · simp only [hop, if_false, diskReadCalls, List.mem_cons, Sys.FileCall.openFile.injEq] at hmem
    rcases hmem with ⟨_, hflag, _⟩ | hmem
    · rw [hflag]; decide
    · exfalso
      cases hfile : (if env.openErr path = true then none else fs.file path) with
      | none => simp [hfile] at hmem
      | some content =>
        simp only [hfile, List.mem_append, List.mem_singleton, reduceCtorEq, or_false] at hmem
        exact readCalls_no_open env content content.length 0 0 name flag perm rfl hmem

end kioperf

/-! ## The bytes that a write hands to the file -/

namespace kioperf

/-- Blocks of `writeBlock` laid end to end repeat the pattern `i mod 256`. -/
theorem replicate_writeBlock_flatten (n : Nat) :
    (List.replicate n writeBlock).flatten = (List.range (n * 1024)).map (fun i => i % 256) := by
  induction n with
  | zero => simp
  | succ n ih =>
    have hsplit : (n + 1) * 1024 = 1024 + n * 1024 := by ring
    rw [List.replicate_succ, List.flatten_cons, ih, hsplit, List.range_add, List.map_append,
      List.map_map]
    congr 1
    apply List.map_congr_left
    intro x _
    simp only [Function.comp]
    omega

/-- The calls of the write loop when none of its `Write` calls fails: one
`Write` of the block per iteration. -/
theorem writeCalls_ok (env : Sys.OS) (data : List Nat) :
    ∀ (n k : Nat), (∀ j, k ≤ j → j < k + n → env.writeErr j = none) →
      writeCalls env data n k = (true, List.replicate n (Sys.FileCall.write data)) := by
  intro n
  induction n with
  | zero => intro k _; rfl
  | succ n ih =>
    intro k hok
    have hk := hok k (le_refl k) (by omega)
    have hrest := ih (k + 1) (fun j h1 h2 => hok j (by omega) (by omega))
    simp only [writeCalls, hk, hrest, List.replicate_succ]

/-- The byte stream of a `diskWrite` whose open and `Write` calls all succeed:
the block, once per iteration of the loop. -/
theorem writtenStream_diskWriteCalls (env : Sys.OS) (path : String) (size : Int) (fsync : Bool)
    (hopen : env.openErr path = false)
    (hok : ∀ k, k < (Go.wrapInt64 (size * 1024)).toNat → env.writeErr k = none) :
    Sys.writtenStream (diskWriteCalls env path size fsync) =
      (List.replicate (Go.wrapInt64 (size * 1024)).toNat writeBlock).flatten := by
  have hcalls := writeCalls_ok env writeBlock (Go.wrapInt64 (size * 1024)).toNat 0
    (fun j _ hj => hok j (by omega))
  unfold diskWriteCalls Sys.writtenStream
  simp only [hopen, Bool.false_eq_true, if_false, hcalls]
  cases fsync <;>
    simp [Sys.FileCall.written, List.map_replicate, List.flatten_append]

/-- The bytes of the file when the write loop ends without a failed `Write`: the
blocks written, between what was before the first offset and what lies
beyond the last one. -/
theorem writeLoop_content (env : Sys.OS) (data : List Nat) :
    ∀ (n k off : Nat) (content : List Nat) (bytes : Int), off ≤ content.length →
      (∀ j, k ≤ j → j < k + n → env.writeErr j = none) →
      (writeLoop env data n k off content bytes).2.2 =
        content.take off ++ (List.replicate n data).flatten ++
          content.drop (off + n * data.length) := by
  intro n
  induction n with
  | zero =>
    intro k off content bytes _ _
    simp [writeLoop]
  | succ n ih =>
    intro k off content bytes hoff hok
    have hstep : writeLoop env data (n + 1) k off content bytes =
        writeLoop env data n (k + 1) (off + data.length) (Sys.writeAt content off data)
          (Go.wrapInt64 (bytes + (data.length : Int))) := by
      simp [writeLoop, hok k (le_refl k) (by omega)]
    have hwa : Sys.writeAt content off data =
        (content.take off ++ data) ++ content.drop (off + data.length) := by
      unfold Sys.writeAt
      have hz : off - content.length = 0 := by omega
      simp [hz]
    have hlen : (content.take off ++ data).length = off + data.length := by
      simp [List.length_take, Nat.min_eq_left hoff]
    rw [hstep, ih (k + 1) (off + data.length) _ _
      (by rw [Sys.writeAt_length]; omega)
      (fun j h1 h2 => hok j (by omega) (by omega)), hwa]
    have htake : List.take (off + data.length)
        ((content.take off ++ data) ++ content.drop (off + data.length)) =
        content.take off ++ data := List.take_left' hlen
    have hdrop : List.drop (off + data.length + n * data.length)
        ((content.take off ++ data) ++ content.drop (off + data.length)) =
        content.drop (off + (n + 1) * data.length) := by
      rw [← hlen, List.drop_append, List.drop_drop, hlen]
      congr 1
      ring
    rw [htake, hdrop, List.replicate_succ, List.flatten_cons]
    simp [List.append_assoc]

/-- The file that a successful `diskWrite` leaves at its path. -/
theorem diskWrite_content (env : Sys.OS) (fs : Sys.FileSys) (t : Sys.Timing) (path : String)
    (size : Int) (fsync : Bool) (hopen : env.openErr path = false)
    (hok : ∀ k, k < (Go.wrapInt64 (size * 1024)).toNat → env.writeErr k = none) :
    (diskWrite env fs t path size fsync).2.file path =
      some ((List.replicate (Go.wrapInt64 (size * 1024)).toNat writeBlock).flatten ++
        ((fs.file path).getD []).drop ((Go.wrapInt64 (size * 1024)).toNat * 1024)) := by
  have h1 := (writeLoop_ok env writeBlock (Go.wrapInt64 (size * 1024)).toNat 0 0
    ((fs.file path).getD []) 0 (by decide) (fun j _ hj => hok j (by omega))).1
  have h2 := writeLoop_content env writeBlock (Go.wrapInt64 (size * 1024)).toNat 0 0
    ((fs.file path).getD []) 0 (Nat.zero_le _) (fun j _ hj => hok j (by omega))
  rw [writeBlock_length] at h2
  unfold diskWrite
  simp only [hopen, Bool.false_eq_true, if_false]
  generalize writeLoop env writeBlock (Go.wrapInt64 (size * 1024)).toNat 0 0
    ((fs.file path).getD []) 0 = res at h1 h2
  obtain ⟨done, bytes, content⟩ := res
  simp only at h1 h2
  subst h1
  subst h2
  cases fsync <;> simp [Sys.FileSys.store, Sys.FileSys.sync]

end kioperf

namespace kioperf

/-- The payload of the specification has `fileSizeMiB * 2^20` bytes, and the
byte at offset `i` is `i mod 256`. -/
theorem specPayload_bytes (size : Int) (h0 : 0 ≤ size) :
    ((specPayload size).length : Int) = size * 2 ^ 20 ∧
    ∀ i : Nat, (i : Int) < size * 2 ^ 20 → (specPayload size)[i]? = some (i % 256) := by
  constructor
  · simp only [specPayload, List.length_map, List.length_range]
    omega
  · intro i hi
    have hlt : i < (size * 2 ^ 20).toNat := by omega
    rw [specPayload, List.getElem?_map, List.getElem?_range hlt]
    rfl

/-- C13 (as amended): for every size `S >= 0` whose byte count `S * 2^20` fits in
an `int64`, the byte stream that a successful `diskWrite(path, S)` hands to
the file, `S*1024` copies of its local 1024-byte block, is the buffer `DATA`
that `DoTest` builds for a write run of that size, and both are the payload
of the specification: `S * 2^20` bytes, the byte at offset `i` being
`i mod 256`.  The file holds that stream from offset 0, followed by whatever
it held beyond it before. -/
theorem C13_stream_is_payload (env : Sys.OS) (fs : Sys.FileSys) (t : Sys.Timing)
    (path : String) (size : Int) (fsync : Bool) (common : CommonConfig)
    (h0 : 0 ≤ size) (hfit : size * 2 ^ 20 < 2 ^ 63)
    (hw : (diskWrite env fs t path size fsync).1.Succeeded = true)
    (hop : common.Operation = "write") (hsize : common.FileSizeMiB = size) :
    Sys.writtenStream (diskWriteCalls env path size fsync) =
      (List.replicate (size * 1024).toNat writeBlock).flatten ∧
    DATA common = some (Sys.writtenStream (diskWriteCalls env path size fsync)) ∧
    Sys.writtenStream (diskWriteCalls env path size fsync) = specPayload size ∧
    ((specPayload size).length : Int) = size * 2 ^ 20 ∧
    (∀ i : Nat, (i : Int) < size * 2 ^ 20 → (specPayload size)[i]? = some (i % 256)) ∧
    (diskWrite env fs t path size fsync).2.file path =
      some (specPayload size ++ ((fs.file path).getD []).drop (size * 2 ^ 20).toNat) := by
  obtain ⟨hopen, hok⟩ := diskWrite_succeeded env fs t path size fsync hw
  have hb : Go.wrapInt64 (size * 1024) = size * 1024 :=
    Go.wrapInt64_of_fits _ (by omega) (by omega)
  have hbb : Go.wrapInt64 (size * 1024 * 1024) = size * 1024 * 1024 :=
    Go.wrapInt64_of_fits _ (by omega) (by omega)
  have hcount : (size * 1024).toNat * 1024 = (size * 2 ^ 20).toNat := by omega
  have hstream := writtenStream_diskWriteCalls env path size fsync hopen hok
  rw [hb] at hstream
  have hspec : (List.replicate (size * 1024).toNat writeBlock).flatten = specPayload size := by
    rw [replicate_writeBlock_flatten, hcount]
    rfl
  have hdata : DATA common = some (specPayload size) := by
    have hnn : ¬ (size * 1024 * 1024 < 0) := by omega
    have hcnt : (size * 1024 * 1024).toNat = (size * 2 ^ 20).toNat := by omega
    simp only [DATA, hop, hsize, if_true, hb, hbb, hnn, if_false, hcnt]
    rfl
  obtain ⟨hlen, hbyte⟩ := specPayload_bytes size h0
  have hfile := diskWrite_content env fs t path size fsync hopen hok
  rw [hb, hspec, hcount] at hfile
  exact ⟨hstream, by rw [hdata, hstream, hspec], by rw [hstream, hspec], hlen, hbyte, hfile⟩

/-- C13 at a write of 1 MiB to a new file. -/
theorem C13_stream_is_payload_witness :
    Sys.writtenStream (diskWriteCalls ⟨fun _ => false, fun _ => none, fun _ => false⟩
      "d/kioperf-file-0.dat" 1 false) = specPayload 1 ∧
    DATA ⟨"disk", "write", 4, 2, 1, "d", 2, false, false, false⟩ =
      some (Sys.writtenStream (diskWriteCalls ⟨fun _ => false, fun _ => none, fun _ => false⟩
        "d/kioperf-file-0.dat" 1 false)) ∧
    ((specPayload 1).length : Int) = 1 * 2 ^ 20 :=
  have h := C13_stream_is_payload ⟨fun _ => false, fun _ => none, fun _ => false⟩
    Sys.FileSys.empty ⟨0, fun _ => 0, 5⟩ "d/kioperf-file-0.dat" 1 false
    ⟨"disk", "write", 4, 2, 1, "d", 2, false, false, false⟩ (by decide) (by decide)
    (diskWrite_ok _ _ _ _ _ _ rfl (fun _ _ => rfl)).1 rfl rfl
  ⟨h.2.2.1, h.2.1, h.2.2.2.1⟩

/-- C13 as stated fails at `S = 2^53`: `size * 1024` and
`FileSizeMiB * 1024 * 1024` wrap around in `int64`, so the successful
`diskWrite` hands no byte to the file and `DATA` is empty; the two agree, but
their length is 0, not `2^53 * 2^20`. -/
theorem C13_counterexample :
    (diskWrite ⟨fun _ => false, fun _ => none, fun _ => false⟩ Sys.FileSys.empty
      ⟨0, fun _ => 0, 5⟩ "d/kioperf-file-0.dat" (2 ^ 53) false).1.Succeeded = true ∧
    Sys.writtenStream (diskWriteCalls ⟨fun _ => false, fun _ => none, fun _ => false⟩
      "d/kioperf-file-0.dat" (2 ^ 53) false) = [] ∧
    DATA ⟨"disk", "write", 4, 2, 2 ^ 53, "d", 2, false, false, false⟩ = some [] ∧
    ((Sys.writtenStream (diskWriteCalls ⟨fun _ => false, fun _ => none, fun _ => false⟩
      "d/kioperf-file-0.dat" (2 ^ 53) false)).length : Int) ≠ 2 ^ 53 * 2 ^ 20 := by
  refine ⟨by decide, by decide, by decide, by decide⟩

end kioperf
